import Mathlib

/-!
# microceph/common/constants.go : path constants and their file modes

The package computes four directory paths from the two environment variables
`SNAP_DATA` and `SNAP_COMMON` (`GetPathConst`) and a map from those paths to
the permission mode each directory is created with (`GetPathFileMode`).

The two functions are thin wrappers around `os.Getenv` and `filepath.Join`
of the Go standard library.  `filepath.Join` and `filepath.Clean` are embedded
here for the Unix build (separator `/`, no volume names), statement by
statement, with every index expression and slice expression fallible: an
index out of range is the result `none`.

A Go string is a sequence of bytes; it is modelled as `List UInt8`.
-/

namespace Microceph

/-! ## Strings -/

/-- A Go `string`: an immutable sequence of bytes. -/
abbrev GoString := List UInt8

/-- The bytes (UTF-8) of a string literal. -/
def str (s : String) : GoString := s.toUTF8.data.toList

/-- Unix `os.PathSeparator` / `filepath.Separator`: the byte `'/'`. -/
def Separator : UInt8 := 47

/-- The byte `'.'`. -/
def dot : UInt8 := 46

/-- Unix `os.IsPathSeparator`: `return PathSeparator == c`. -/
def IsPathSeparator (c : UInt8) : Bool := c == Separator

/-! ## `lazybuf` (path/filepath)

```go
type lazybuf struct {
	path       string
	buf        []byte
	w          int
	volAndPath string
	volLen     int
}
```
On Unix `volLen = 0` and `volAndPath = path`; the two fields are not carried.
-/

/-- The lazily allocated output buffer of `Clean`; `buf = none` is Go's `nil`. -/
structure lazybuf where
  path : GoString
  buf : Option (List UInt8)
  w : Nat
  deriving DecidableEq

/-- Translation of
```go
func (b *lazybuf) index(i int) byte {
	if b.buf != nil { return b.buf[i] }
	return b.path[i]
}
``` -/
def lazybuf.index (b : lazybuf) (i : Nat) : Option UInt8 :=
  match b.buf with
  | some a => a[i]?
  | none => b.path[i]?

/-- Translation of
```go
func (b *lazybuf) append(c byte) {
	if b.buf == nil {
		if b.w < len(b.path) && b.path[b.w] == c {
			b.w++
			return
		}
		b.buf = make([]byte, len(b.path))
		copy(b.buf, b.path[:b.w])
	}
	b.buf[b.w] = c
	b.w++
}
```
The slice `b.path[:b.w]` fails when `b.w > len(b.path)`, the store
`b.buf[b.w] = c` fails when `b.w ≥ len(b.buf)`. -/
def lazybuf.append (b : lazybuf) (c : UInt8) : Option lazybuf :=
  match b.buf with
  | none =>
    if b.w < b.path.length && b.path[b.w]? == some c then
      some { b with w := b.w + 1 }
    else if b.w ≤ b.path.length then
      let a := b.path.take b.w ++ List.replicate (b.path.length - b.w) (0 : UInt8)
      if b.w < a.length then
        some { b with buf := some (a.set b.w c), w := b.w + 1 }
      else none
    else none
  | some a =>
    if b.w < a.length then
      some { b with buf := some (a.set b.w c), w := b.w + 1 }
    else none

/-- Translation of (with `volLen = 0`)
```go
func (b *lazybuf) string() string {
	if b.buf == nil { return b.volAndPath[:b.volLen+b.w] }
	return b.volAndPath[:b.volLen] + string(b.buf[:b.w])
}
``` -/
def lazybuf.string (b : lazybuf) : Option GoString :=
  match b.buf with
  | none => if b.w ≤ b.path.length then some (b.path.take b.w) else none
  | some a => if b.w ≤ a.length then some (a.take b.w) else none

/-! ## `filepath.Clean` -/

/-- Second case of the `switch` in `Clean`, with Go's short-circuit evaluation:
`path[r] == '.' && (r+1 == n || os.IsPathSeparator(path[r+1]))`. -/
def isDotElem (path : GoString) (n r : Nat) : Option Bool :=
  match path[r]? with
  | none => none
  | some c =>
    if c == dot then
      if r + 1 == n then some true
      else
        match path[r + 1]? with
        | none => none
        | some c1 => some (IsPathSeparator c1)
    else some false

/-- Third case of the `switch` in `Clean`, with Go's short-circuit evaluation:
`path[r] == '.' && path[r+1] == '.' && (r+2 == n || os.IsPathSeparator(path[r+2]))`. -/
def isDotDotElem (path : GoString) (n r : Nat) : Option Bool :=
  match path[r]? with
  | none => none
  | some c =>
    if c == dot then
      match path[r + 1]? with
      | none => none
      | some c1 =>
        if c1 == dot then
          if r + 2 == n then some true
          else
            match path[r + 2]? with
            | none => none
            | some c2 => some (IsPathSeparator c2)
        else some false
    else some false

/-- The inner loop of the `..` case, run after `out.w--`; the argument is the
current `out.w`, the result the final `out.w`:
```go
for out.w > dotdot && !os.IsPathSeparator(out.index(out.w)) {
	out.w--
}
``` -/
def backtrack (out : lazybuf) (dotdot : Nat) : Nat → Option Nat
  | 0 => some 0
  | w + 1 =>
    if w + 1 > dotdot then
      match out.index (w + 1) with
      | none => none
      | some c => if !IsPathSeparator c then backtrack out dotdot w else some (w + 1)
    else some (w + 1)

/-- The copy loop of the default case; the first argument bounds the number of
iterations (`n - r` are enough), the result is the final `r` and buffer:
```go
for ; r < n && !os.IsPathSeparator(path[r]); r++ {
	out.append(path[r])
}
``` -/
def copyElem (path : GoString) (n : Nat) : Nat → Nat → lazybuf → Option (Nat × lazybuf)
  | 0, r, out => if r < n then none else some (r, out)
  | k + 1, r, out =>
    if r < n then
      match path[r]? with
      | none => none
      | some c =>
        if !IsPathSeparator c then
          match out.append c with
          | none => none
          | some out1 => copyElem path n k (r + 1) out1
        else some (r, out)
    else some (r, out)

/-- One iteration of the main loop of `Clean`, entered with `r < n`: the body
of `for r < n { switch { ... } }`, from the values of `r`, `dotdot` and `out`
before it to their values after it.
```go
switch {
case os.IsPathSeparator(path[r]):
	r++
case path[r] == '.' && (r+1 == n || os.IsPathSeparator(path[r+1])):
	r++
case path[r] == '.' && path[r+1] == '.' && (r+2 == n || os.IsPathSeparator(path[r+2])):
	r += 2
	switch {
	case out.w > dotdot:
		out.w--
		for out.w > dotdot && !os.IsPathSeparator(out.index(out.w)) { out.w-- }
	case !rooted:
		if out.w > 0 { out.append(Separator) }
		out.append('.')
		out.append('.')
		dotdot = out.w
	}
default:
	if rooted && out.w != 1 || !rooted && out.w != 0 { out.append(Separator) }
	for ; r < n && !os.IsPathSeparator(path[r]); r++ { out.append(path[r]) }
}
``` -/
def cleanBody (path : GoString) (rooted : Bool) (n : Nat) (r dotdot : Nat) (out : lazybuf) :
    Option (Nat × Nat × lazybuf) :=
  match path[r]? with
  | none => none
  | some c =>
    if IsPathSeparator c then some (r + 1, dotdot, out)
    else
      match isDotElem path n r with
      | none => none
      | some true => some (r + 1, dotdot, out)
      | some false =>
        match isDotDotElem path n r with
        | none => none
        | some true =>
          if out.w > dotdot then
            match backtrack out dotdot (out.w - 1) with
            | none => none
            | some w1 => some (r + 2, dotdot, { out with w := w1 })
          else if !rooted then
            match (if out.w > 0 then out.append Separator else some out) with
            | none => none
            | some out1 =>
              match out1.append dot with
              | none => none
              | some out2 =>
                match out2.append dot with
                | none => none
                | some out3 => some (r + 2, out3.w, out3)
          else some (r + 2, dotdot, out)
        | some false =>
          match (if (rooted && out.w != 1) || (!rooted && out.w != 0)
                 then out.append Separator else some out) with
          | none => none
          | some out1 =>
            match copyElem path n (n - r) r out1 with
            | none => none
            | some (r1, out2) => some (r1, dotdot, out2)

/-- The main loop `for r < n { ... }` of `Clean`.  The first argument bounds
the number of iterations; every iteration advances `r`, so `n` iterations are
enough. -/
def cleanLoop (path : GoString) (rooted : Bool) (n : Nat) :
    Nat → Nat → Nat → lazybuf → Option lazybuf
  | 0, r, _, out => if r < n then none else some out
  | fuel + 1, r, dotdot, out =>
    if r < n then
      match cleanBody path rooted n r dotdot out with
      | none => none
      | some (r1, dotdot1, out1) => cleanLoop path rooted n fuel r1 dotdot1 out1
    else some out

/-- Unix `filepath.Clean` (`volumeNameLen` is `0`, `FromSlash` is the identity):
```go
func Clean(path string) string {
	originalPath := path
	volLen := volumeNameLen(path)
	path = path[volLen:]
	if path == "" {
		...
		return originalPath + "."
	}
	rooted := os.IsPathSeparator(path[0])
	n := len(path)
	out := lazybuf{path: path, volAndPath: originalPath, volLen: volLen}
	r, dotdot := 0, 0
	if rooted {
		out.append(Separator)
		r, dotdot = 1, 1
	}
	for r < n { ... }
	if out.w == 0 { out.append('.') }
	return FromSlash(out.string())
}
``` -/
def Clean (path : GoString) : Option GoString :=
  if path = [] then some (path ++ [dot])
  else
    match path[0]? with
    | none => none
    | some c0 =>
      let rooted := IsPathSeparator c0
      let n := path.length
      let out : lazybuf := { path := path, buf := none, w := 0 }
      match (if rooted then (out.append Separator).map (fun o => (1, 1, o))
             else some (0, 0, out)) with
      | none => none
      | some (r, dotdot, out1) =>
        match cleanLoop path rooted n n r dotdot out1 with
        | none => none
        | some out2 =>
          match (if out2.w == 0 then out2.append dot else some out2) with
          | none => none
          | some out3 => out3.string

/-! ## `strings.Join` and `filepath.Join` -/

/-- The function `strings.Join(elems, sep)`: the elements concatenated with
`sep` between them. -/
def stringsJoin : List GoString → GoString → GoString
  | [], _ => []
  | [a], _ => a
  | a :: b :: rest, sep => a ++ sep ++ stringsJoin (b :: rest) sep

/-- Unix `filepath.Join`:
```go
func join(elem []string) string {
	for i, e := range elem {
		if e != "" {
			return Clean(strings.Join(elem[i:], string(Separator)))
		}
	}
	return ""
}
``` -/
def Join : List GoString → Option GoString
  | [] => some []
  | e :: rest =>
    if e ≠ [] then Clean (stringsJoin (e :: rest) [Separator])
    else Join rest

/-! ## The environment -/

/-- The process environment: for each variable name, its value when set. -/
abbrev Env := GoString → Option GoString

/-- The function `os.Getenv`: the value of the variable, "which will be empty
if the variable is not present". -/
def Getenv (env : Env) (key : GoString) : GoString :=
  match env key with
  | some v => v
  | none => []

/-! ## constants.go -/

/-- The record `type PathConst struct { ConfPath, RunPath, DataPath, LogPath string }`. -/
structure PathConst where
  ConfPath : GoString
  RunPath : GoString
  DataPath : GoString
  LogPath : GoString
  deriving DecidableEq

/-- Values of `os.FileMode` (a `uint32`); the constants used are below `2^9`. -/
abbrev FileMode := Nat

/-- The map `type PathFileMode map[string]os.FileMode`, as the list of its
entries, no key twice. -/
abbrev PathFileMode := List (GoString × FileMode)

/-- Map assignment `m[k] = v`: overwrite the entry of `k` or add one. -/
def mapassign : PathFileMode → GoString → FileMode → PathFileMode
  | [], k, v => [(k, v)]
  | (k1, v1) :: rest, k, v =>
    if k1 = k then (k, v) :: rest else (k1, v1) :: mapassign rest k v

/-- Map lookup `v, ok := m[k]`. -/
def mapaccess : PathFileMode → GoString → Option FileMode
  | [], _ => none
  | (k1, v1) :: rest, k => if k1 = k then some v1 else mapaccess rest k

/-- A map composite literal with non-constant keys: the entries are assigned
to an empty map in source order. -/
def maplit (entries : List (GoString × FileMode)) : PathFileMode :=
  entries.foldl (fun m e => mapassign m e.1 e.2) []

/-- The set of keys of a map. -/
def mapkeys (m : PathFileMode) : List GoString := m.map Prod.fst

/-- Translation of
```go
func GetPathConst() PathConst {
	return PathConst{
		ConfPath: filepath.Join(os.Getenv("SNAP_DATA"), "conf"),
		RunPath:  filepath.Join(os.Getenv("SNAP_DATA"), "run"),
		DataPath: filepath.Join(os.Getenv("SNAP_COMMON"), "data"),
		LogPath:  filepath.Join(os.Getenv("SNAP_COMMON"), "logs"),
	}
}
``` -/
def GetPathConst (env : Env) : Option PathConst :=
  match Join [Getenv env (str "SNAP_DATA"), str "conf"] with
  | none => none
  | some conf =>
    match Join [Getenv env (str "SNAP_DATA"), str "run"] with
    | none => none
    | some run =>
      match Join [Getenv env (str "SNAP_COMMON"), str "data"] with
      | none => none
      | some data =>
        match Join [Getenv env (str "SNAP_COMMON"), str "logs"] with
        | none => none
        | some logs =>
          some { ConfPath := conf, RunPath := run, DataPath := data, LogPath := logs }

/-- Translation of
```go
func GetPathFileMode() PathFileMode {
	pathConsts := GetPathConst()
	return PathFileMode{
		pathConsts.ConfPath: 0750,
		pathConsts.RunPath:  0700,
		pathConsts.DataPath: 0700,
		pathConsts.LogPath:  0700,
	}
}
``` -/
def GetPathFileMode (env : Env) : Option PathFileMode :=
  match GetPathConst env with
  | none => none
  | some pathConsts =>
    some (maplit [(pathConsts.ConfPath, 0o750), (pathConsts.RunPath, 0o700),
                  (pathConsts.DataPath, 0o700), (pathConsts.LogPath, 0o700)])

/-- The environment in which exactly `SNAP_DATA` and `SNAP_COMMON` are set. -/
def snapEnv (S C : GoString) : Env := fun key =>
  if key = str "SNAP_DATA" then some S
  else if key = str "SNAP_COMMON" then some C
  else none

/-! ## Lexical cleaning as documented

The documentation of `filepath.Clean`: "Clean returns the shortest path name
equivalent to path by purely lexical processing.  It applies the following
rules iteratively until no further processing can be done:
 1. Replace multiple Separator elements with a single one.
 2. Eliminate each . path name element (the current directory).
 3. Eliminate each inner .. path name element (the parent directory) along
    with the non-.. element that precedes it.
 4. Eliminate .. elements that begin a rooted path: that is, replace "/.." by
    "/" at the beginning of a path.
The returned path ends in a slash only if it represents a root directory.
If the result of this process is an empty string, Clean returns the string
"."."  The definitions below state this on the list of path name elements. -/

/-- The element `".."`. -/
def dotdot : GoString := [dot, dot]

/-- The fields of a path between its separators (never the empty list). -/
def splitSep : GoString → List GoString
  | [] => [[]]
  | c :: cs =>
    if IsPathSeparator c then [] :: splitSep cs
    else
      match splitSep cs with
      | [] => [[c]]
      | f :: fs => (c :: f) :: fs

/-- The path name elements: the fields that are neither empty (rule 1) nor
`"."` (rule 2). -/
def components (p : GoString) : List GoString :=
  (splitSep p).filter (fun f => decide (f ≠ [] ∧ f ≠ [dot]))

/-- A path is rooted when it begins with a separator. -/
def isRooted : GoString → Bool
  | [] => false
  | c :: _ => IsPathSeparator c

/-- One element read, on the stack of the elements kept so far (last kept
element first): `..` removes the element before it when that is not `..`
(rule 3), is dropped at the root (rule 4), and is kept otherwise; any other
element is kept. -/
def cleanStep (rooted : Bool) (stack : List GoString) (e : GoString) : List GoString :=
  if e = dotdot then
    match stack with
    | [] => if rooted then [] else [e]
    | top :: rest =>
      if top ≠ dotdot then rest
      else if rooted then stack
      else e :: stack
  else e :: stack

/-- The kept elements written out: the root separator when rooted, then the
elements with one separator between them. -/
def raw (rooted : Bool) (stack : List GoString) : GoString :=
  (if rooted then [Separator] else []) ++ stringsJoin stack.reverse [Separator]

/-- The written path, `"."` when it would be empty. -/
def render (rooted : Bool) (stack : List GoString) : GoString :=
  if raw rooted stack = [] then [dot] else raw rooted stack

/-- The kept elements of a path, last first. -/
def cleanStack (p : GoString) : List GoString :=
  (components p).foldl (cleanStep (isRooted p)) []

/-- Lexical cleaning of a path, as documented. -/
def cleanSpec (p : GoString) : GoString :=
  render (isRooted p) (cleanStack p)

/-- The lexical join of a root with one path segment: for a root that is not
empty the cleaned form of `root + "/" + segment`; an empty root is ignored. -/
def joinSpec (root seg : GoString) : GoString :=
  if root = [] then cleanSpec seg else cleanSpec (root ++ [Separator] ++ seg)


/-! ## Definitions used in the proofs -/

/-- The buffer `b` over `path` holds the bytes `L`: `b.w` is their number and
they are the first `b.w` bytes of `path` (no array allocated yet) or of the
array, which is as long as `path`. -/
def Rep (path : GoString) (b : lazybuf) (L : List UInt8) : Prop :=
  b.path = path ∧ b.w = L.length ∧
    match b.buf with
    | none => ∃ t, path = L ++ t
    | some a => a.length = path.length ∧ ∃ t, a = L ++ t

/-- The bytes of the element that begins a path. -/
def elemOf (rest : GoString) : GoString := rest.takeWhile (fun c => !IsPathSeparator c)

/-- What follows the element that begins a path. -/
def afterElem (rest : GoString) : GoString := rest.dropWhile (fun c => !IsPathSeparator c)

/-- The separator written before an element pushed on a stack. -/
def sepOf (stack : List GoString) : GoString := if stack = [] then [] else [Separator]

/-- The stacks the loop of `Clean` builds: real elements over `k` elements
`..`, which a rooted path never keeps; each real element is non-empty, is not
`..` and holds no separator. -/
def StackOK (rooted : Bool) (real : List GoString) (k : Nat) : Prop :=
  (rooted = true → k = 0) ∧
    ∀ e ∈ real, e ≠ [] ∧ e ≠ dotdot ∧ ∀ c ∈ e, IsPathSeparator c = false

/-- The rest of a path begins at the end of an element: it is empty or begins
with a separator. -/
def Boundary (rest : GoString) : Prop :=
  rest = [] ∨ ∃ s t, rest = s :: t ∧ IsPathSeparator s = true

/-- The invariant of the main loop of `Clean` at read position `r`: the buffer
holds the written form of the stack `real ++ replicate k ".."`, `dotdot` is the
length of the written `..` prefix, and the buffer is not ahead of the read
position. -/
def LoopInv (path : GoString) (rooted : Bool) (r dd : Nat) (out : lazybuf)
    (real : List GoString) (k : Nat) : Prop :=
  StackOK rooted real k ∧
  dd = (raw rooted (List.replicate k dotdot)).length ∧
  Rep path out (raw rooted (real ++ List.replicate k dotdot)) ∧
  (raw rooted (real ++ List.replicate k dotdot)).length ≤ r ∧
  ((raw rooted (real ++ List.replicate k dotdot)).length = r →
    (raw rooted (real ++ List.replicate k dotdot)).length = (raw rooted []).length ∨
      Boundary (path.drop r))


/-- What one iteration of the main loop of `Clean` achieves from a state that
satisfies the invariant: it does not fail, the invariant holds again, less of
the path is left to read, and the elements left to read have the same effect
on the new stack as the elements that were left had on the old one. -/
def BodyGoal (path : GoString) (rooted : Bool) (r dd : Nat) (out : lazybuf)
    (real : List GoString) (k : Nat) : Prop :=
  ∃ r1 dd1 out1 real1 k1,
    cleanBody path rooted path.length r dd out = some (r1, dd1, out1) ∧
    LoopInv path rooted r1 dd1 out1 real1 k1 ∧
    (path.drop r1).length < (path.drop r).length ∧
    (components (path.drop r)).foldl (cleanStep rooted) (real ++ List.replicate k dotdot)
      = (components (path.drop r1)).foldl (cleanStep rooted)
          (real1 ++ List.replicate k1 dotdot)


/-- A path segment that is one real path name element: not empty, neither
`"."` nor `".."`, and without a separator. -/
def SegOK (seg : GoString) : Prop :=
  seg ≠ [] ∧ seg ≠ [dot] ∧ seg ≠ dotdot ∧ ∀ c ∈ seg, IsPathSeparator c = false

/-- What a joined path has before its last element: the written form of the
cleaned root and the separator after it, when one is needed. -/
def pathStem (root : GoString) : GoString :=
  raw (isRooted root) (cleanStack root) ++ sepOf (cleanStack root)

/-- The record `GetPathConst` computes from the values of the two roots. -/
def pathsOf (S C : GoString) : PathConst :=
  { ConfPath := joinSpec S (str "conf"), RunPath := joinSpec S (str "run"),
    DataPath := joinSpec C (str "data"), LogPath := joinSpec C (str "logs") }


/-- A kept path name element: not empty, not `"."`, without a separator. -/
def ElemOK (x : GoString) : Prop :=
  x ≠ [] ∧ x ≠ [dot] ∧ ∀ c ∈ x, IsPathSeparator c = false


/-- A path in lexically canonical written form: the root separator when
rooted, then `k` elements `..` (none when rooted), then real path name
elements (not empty, neither `"."` nor `".."`, without a separator), with one
separator between two elements and none at the end; `"."` when all that is
empty. -/
def Canonical (p : GoString) : Prop :=
  ∃ (rooted : Bool) (real : List GoString) (k : Nat),
    p = render rooted (real ++ List.replicate k dotdot) ∧
    (rooted = true → k = 0) ∧ ∀ x ∈ real, SegOK x


/-! ## The buffer as a list -/

theorem IsPathSeparator_iff (c : UInt8) : IsPathSeparator c = true ↔ c = Separator := by
  simp [IsPathSeparator]

theorem rep_index {path : GoString} {b : lazybuf} {L : List UInt8} (h : Rep path b L)
    {i : Nat} (hi : i < L.length) : b.index i = L[i]? := by
  obtain ⟨hp, _, hb⟩ := h
  unfold lazybuf.index
  cases hbuf : b.buf with
  | none =>
    rw [hbuf] at hb
    obtain ⟨t, ht⟩ := hb
    simp only [hp, ht]
    exact List.getElem?_append_left hi
  | some a =>
    rw [hbuf] at hb
    obtain ⟨_, t, ht⟩ := hb
    simp only [ht]
    exact List.getElem?_append_left hi

theorem rep_string {path : GoString} {b : lazybuf} {L : List UInt8} (h : Rep path b L) :
    b.string = some L := by
  obtain ⟨hp, hw, hb⟩ := h
  unfold lazybuf.string
  cases hbuf : b.buf with
  | none =>
    rw [hbuf] at hb
    obtain ⟨t, ht⟩ := hb
    simp [hp, hw, ht]
  | some a =>
    rw [hbuf] at hb
    obtain ⟨_, t, ht⟩ := hb
    simp [hw, ht]

theorem rep_trunc {path : GoString} {b : lazybuf} {L : List UInt8} (h : Rep path b L)
    (k : Nat) (hk : k ≤ L.length) : Rep path { b with w := k } (L.take k) := by
  obtain ⟨hp, hw, hb⟩ := h
  refine ⟨hp, by simp [hk], ?_⟩
  cases hbuf : b.buf with
  | none =>
    rw [hbuf] at hb
    obtain ⟨t, ht⟩ := hb
    exact ⟨L.drop k ++ t, by rw [← List.append_assoc, List.take_append_drop]; exact ht⟩
  | some a =>
    rw [hbuf] at hb
    obtain ⟨hl, t, ht⟩ := hb
    exact ⟨hl, L.drop k ++ t, by rw [← List.append_assoc, List.take_append_drop]; exact ht⟩

theorem rep_append {path : GoString} {b : lazybuf} {L : List UInt8} (h : Rep path b L)
    (c : UInt8) (hlt : L.length < path.length) :
    ∃ b1, b.append c = some b1 ∧ Rep path b1 (L ++ [c]) := by
  obtain ⟨hp, hw, hb⟩ := h
  unfold lazybuf.append
  cases hbuf : b.buf with
  | none =>
    rw [hbuf] at hb
    obtain ⟨t, ht⟩ := hb
    simp only [hp, hw]
    by_cases hc : (decide (L.length < path.length) && path[L.length]? == some c) = true
    · rw [if_pos hc]
      refine ⟨_, rfl, rfl, by simp, ?_⟩
      show ∃ t, path = L ++ [c] ++ t
      simp only [Bool.and_eq_true, decide_eq_true_eq, beq_iff_eq] at hc
      have h2 := hc.2
      rw [ht, List.getElem?_append_right (Nat.le_refl _)] at h2
      cases t with
      | nil => simp at h2
      | cons x t1 =>
        simp at h2
        exact ⟨t1, by simp [ht, h2]⟩
    · rw [if_neg hc, if_pos (Nat.le_of_lt hlt)]
      have hlen : (List.take L.length path ++ List.replicate (path.length - L.length) (0 : UInt8)).length
          = path.length := by
        simp; omega
      simp only [hlen, if_pos hlt]
      refine ⟨_, rfl, rfl, by simp, ?_⟩
      simp only []
      refine ⟨by simp; omega, ?_⟩
      have htk : List.take L.length path = L := by simp [ht]
      rw [htk]
      obtain ⟨m, hm⟩ : ∃ m, path.length - L.length = m + 1 := ⟨path.length - L.length - 1, by omega⟩
      rw [hm, List.replicate_succ]
      exact ⟨List.replicate m 0, by simp⟩
  | some a =>
    rw [hbuf] at hb
    obtain ⟨hl, t, ht⟩ := hb
    simp only [hw]
    have hlt2 : L.length < a.length := by omega
    rw [if_pos hlt2]
    refine ⟨_, rfl, hp, by simp, ?_⟩
    simp only []
    refine ⟨by simp [hl], ?_⟩
    cases t with
    | nil => simp [ht] at hlt2
    | cons x t1 => exact ⟨t1, by simp [ht]⟩

/-! ## Path name elements -/

theorem splitSep_ne_nil (p : GoString) : splitSep p ≠ [] := by
  induction p with
  | nil => simp [splitSep]
  | cons c cs ih =>
    unfold splitSep
    split
    · simp
    · split <;> simp

theorem splitSep_sepfree (e : GoString) (h : ∀ c ∈ e, IsPathSeparator c = false) :
    splitSep e = [e] := by
  induction e with
  | nil => rfl
  | cons c cs ih =>
    have hc : IsPathSeparator c = false := h c (List.mem_cons_self _ _)
    have hcs := ih (fun x hx => h x (List.mem_cons_of_mem _ hx))
    simp [splitSep, hc, hcs]

theorem splitSep_append_sep (a b : GoString) :
    splitSep (a ++ Separator :: b) = splitSep a ++ splitSep b := by
  induction a with
  | nil => simp [splitSep, IsPathSeparator]
  | cons c cs ih =>
    by_cases hc : IsPathSeparator c = true
    · simp [splitSep, hc, ih]
    · cases hs : splitSep cs with
      | nil => exact absurd hs (splitSep_ne_nil cs)
      | cons f fs => simp [splitSep, hc, ih, hs]

theorem components_nil : components [] = [] := by
  simp [components, splitSep]

theorem components_sep_cons (c : UInt8) (t : GoString) (hc : IsPathSeparator c = true) :
    components (c :: t) = components t := by
  simp [components, splitSep, hc]

theorem components_append_sep (a b : GoString) :
    components (a ++ Separator :: b) = components a ++ components b := by
  simp [components, splitSep_append_sep]

theorem components_sepfree (e : GoString) (h : ∀ c ∈ e, IsPathSeparator c = false) :
    components e = if e = [] ∨ e = [dot] then [] else [e] := by
  simp only [components, splitSep_sepfree e h]
  by_cases h1 : e = [] ∨ e = [dot]
  · rw [if_pos h1]
    rcases h1 with h1 | h1 <;> simp [h1]
  · rw [if_neg h1]
    push_neg at h1
    simp [h1]

theorem elemOf_append_afterElem (rest : GoString) : elemOf rest ++ afterElem rest = rest :=
  List.takeWhile_append_dropWhile _ _

theorem elemOf_sepfree (rest : GoString) : ∀ c ∈ elemOf rest, IsPathSeparator c = false := by
  intro c hc
  have := List.mem_takeWhile_imp hc
  simpa using this

theorem afterElem_boundary (rest : GoString) :
    afterElem rest = [] ∨ ∃ s t, afterElem rest = s :: t ∧ IsPathSeparator s = true := by
  cases h : afterElem rest with
  | nil => exact Or.inl rfl
  | cons s t =>
    right
    refine ⟨s, t, rfl, ?_⟩
    have := List.head_dropWhile_not (fun c => !IsPathSeparator c) rest
    unfold afterElem at h
    simp [h] at this
    exact this

theorem components_elem (rest : GoString) :
    components rest = components (elemOf rest) ++ components (afterElem rest) := by
  rcases afterElem_boundary rest with h | ⟨s, t, h, hs⟩
  · have := elemOf_append_afterElem rest
    rw [h, List.append_nil] at this
    rw [h, components_nil, List.append_nil, this]
  · have := elemOf_append_afterElem rest
    rw [h] at this
    have hs2 : s = Separator := (IsPathSeparator_iff s).1 hs
    have h3 : components rest = components (elemOf rest) ++ components t := by
      rw [hs2] at this
      rw [← components_append_sep, this]
    rw [h3, h, components_sep_cons s t hs]

/-! ## The written form of a stack -/

theorem stringsJoin_snoc (l : List GoString) (e sep : GoString) :
    stringsJoin (l ++ [e]) sep = if l = [] then e else stringsJoin l sep ++ sep ++ e := by
  induction l with
  | nil => simp [stringsJoin]
  | cons a l1 ih =>
    cases l1 with
    | nil => simp [stringsJoin]
    | cons b l2 =>
      have h1 : stringsJoin ((a :: b :: l2) ++ [e]) sep
          = a ++ sep ++ stringsJoin ((b :: l2) ++ [e]) sep := by
        simp [stringsJoin]
      rw [h1, ih]
      simp [stringsJoin]

theorem raw_cons (rooted : Bool) (e : GoString) (st : List GoString) :
    raw rooted (e :: st) = raw rooted st ++ sepOf st ++ e := by
  unfold raw sepOf
  rw [List.reverse_cons, stringsJoin_snoc]
  by_cases h : st = []
  · simp [h, stringsJoin]
  · simp [h]

theorem raw_nil (rooted : Bool) : raw rooted [] = if rooted then [Separator] else [] := by
  simp [raw, stringsJoin]

theorem raw_length_le (rooted : Bool) (real st : List GoString) :
    (raw rooted st).length ≤ (raw rooted (real ++ st)).length := by
  induction real with
  | nil => simp
  | cons e real ih =>
    rw [List.cons_append, raw_cons]
    simp only [List.length_append]
    omega

theorem raw_replicate_length (rooted : Bool) (k : Nat) (hk : rooted = true → k = 0) :
    (raw rooted (List.replicate k dotdot)).length = (raw rooted []).length ↔ k = 0 := by
  constructor
  · intro h
    cases k with
    | zero => rfl
    | succ k =>
      rw [List.replicate_succ, raw_cons] at h
      have := raw_length_le rooted (List.replicate k dotdot) []
      simp only [List.append_nil] at this
      simp only [List.length_append] at h
      have h2 : dotdot.length = 2 := rfl
      omega
  · intro h
    simp [h]

theorem raw_length_base (rooted : Bool) (st : List GoString) (hne : ∀ e ∈ st, e ≠ []) :
    (raw rooted st).length = (raw rooted []).length ↔ st = [] := by
  constructor
  · intro h
    cases st with
    | nil => rfl
    | cons e st =>
      rw [raw_cons] at h
      have := raw_length_le rooted st []
      simp only [List.append_nil] at this
      have he : e ≠ [] := (hne e (List.mem_cons_self _ _))
      have : 0 < e.length := List.length_pos.2 he
      simp at h
      omega
  · intro h
    simp [h]

/-! ## The inner loops -/

theorem drop_cons_facts {path : GoString} {r : Nat} {c : UInt8} {rest : GoString}
    (h : path.drop r = c :: rest) :
    path[r]? = some c ∧ path.drop (r + 1) = rest ∧ r < path.length := by
  have hlt : r < path.length := by
    by_contra hge
    rw [List.drop_eq_nil_of_le (by omega)] at h
    exact absurd h (by simp)
  refine ⟨?_, ?_, hlt⟩
  · have := List.getElem?_drop path r 0
    rw [h] at this
    simpa using this.symm
  · rw [← List.drop_drop, h]; rfl

theorem drop_add_of_append {path : GoString} {r : Nat} {e rest : GoString}
    (h : path.drop r = e ++ rest) : path.drop (r + e.length) = rest := by
  rw [← List.drop_drop, h]
  simp

theorem copyElem_spec (path : GoString) :
    ∀ (k r : Nat) (out : lazybuf) (L : List UInt8),
      Rep path out L → L.length ≤ r → path.length - r ≤ k →
      ∃ out1, copyElem path path.length k r out
          = some (r + (elemOf (path.drop r)).length, out1)
        ∧ Rep path out1 (L ++ elemOf (path.drop r)) := by
  intro k
  induction k with
  | zero =>
    intro r out L hrep _ hk
    have hd : path.drop r = [] := List.drop_eq_nil_of_le (by omega)
    refine ⟨out, ?_, ?_⟩
    · simp [copyElem, hd, elemOf]
      omega
    · simpa [hd, elemOf] using hrep
  | succ k ih =>
    intro r out L hrep hL hk
    cases hd : path.drop r with
    | nil =>
      have : path.length ≤ r := List.drop_eq_nil_iff.1 hd
      refine ⟨out, ?_, ?_⟩
      · simp [copyElem, elemOf]
        omega
      · simpa [elemOf] using hrep
    | cons c rest =>
      obtain ⟨hget, hdrop, hlt⟩ := drop_cons_facts hd
      by_cases hc : IsPathSeparator c = true
      · refine ⟨out, ?_, ?_⟩
        · simp [copyElem, hlt, hget, hc, elemOf]
        · simpa [elemOf, hc] using hrep
      · obtain ⟨out1, happ, hrep1⟩ := rep_append hrep c (by omega)
        obtain ⟨out2, hcopy, hrep2⟩ := ih (r + 1) out1 (L ++ [c]) hrep1
          (by simp; omega) (by omega)
        refine ⟨out2, ?_, ?_⟩
        · simp only [copyElem, hlt, if_true, hget, hc, happ, hcopy, hdrop]
          simp [elemOf, hc]
          omega
        · simpa [elemOf, hc, hdrop] using hrep2

theorem backtrack_spec (out : lazybuf) (dd a : Nat) (hdd : dd ≤ a)
    (hstop : a = dd ∨ ∃ c, out.index a = some c ∧ IsPathSeparator c = true) :
    ∀ w0, a ≤ w0 →
      (∀ w, a < w → w ≤ w0 → ∃ c, out.index w = some c ∧ IsPathSeparator c = false) →
      backtrack out dd w0 = some a := by
  intro w0
  induction w0 with
  | zero =>
    intro ha _
    have : a = 0 := by omega
    simp [backtrack, this]
  | succ w ih =>
    intro ha hmid
    by_cases hEq : a = w + 1
    · unfold backtrack
      rcases hstop with h | ⟨c, hc, hs⟩
      · have : ¬ (w + 1 > dd) := by omega
        simp [this, hEq]
      · by_cases hgt : w + 1 > dd
        · rw [hEq] at hc
          simp [hgt, hc, hs, hEq]
        · simp [hgt, hEq]
    · obtain ⟨c, hc, hs⟩ := hmid (w + 1) (by omega) (Nat.le_refl _)
      have hgt : w + 1 > dd := by omega
      unfold backtrack
      simp only [hgt, if_true, hc, hs]
      exact ih (by omega) (fun w1 h1 h2 => hmid w1 h1 (by omega))

/-! ## Reading one element -/

theorem elemOf_cons_not_sep (c : UInt8) (rest : GoString) (hc : IsPathSeparator c = false) :
    elemOf (c :: rest) = c :: elemOf rest := by
  simp [elemOf, List.takeWhile, hc]

theorem elemOf_of_boundary (rest : GoString) (h : Boundary rest) : elemOf rest = [] := by
  rcases h with h | ⟨s, t, h, hs⟩
  · simp [h, elemOf]
  · simp [h, elemOf, List.takeWhile, hs]

theorem not_boundary_cons (c : UInt8) (rest : GoString) (hc : IsPathSeparator c = false) :
    ¬ Boundary (c :: rest) := by
  rintro (h | ⟨s, t, h, hs⟩)
  · simp at h
  · simp only [List.cons.injEq] at h
    rw [← h.1, hc] at hs
    exact absurd hs (by simp)

theorem drop_after_elem {path : GoString} {r : Nat} {c : UInt8} {rest : GoString}
    (hd : path.drop r = c :: rest) :
    path.drop (r + (elemOf (c :: rest)).length) = afterElem (c :: rest) := by
  apply drop_add_of_append
  rw [elemOf_append_afterElem, hd]

theorem afterElem_length (rest : GoString) :
    (afterElem rest).length + (elemOf rest).length = rest.length := by
  have := congrArg List.length (elemOf_append_afterElem rest)
  simp only [List.length_append] at this
  omega

theorem components_cons_not_sep (c : UInt8) (rest : GoString) (hc : IsPathSeparator c = false) :
    components (c :: rest)
      = (if elemOf (c :: rest) = [dot] then [] else [elemOf (c :: rest)])
          ++ components (afterElem (c :: rest)) := by
  rw [components_elem (c :: rest), components_sepfree _ (elemOf_sepfree _)]
  have : elemOf (c :: rest) ≠ [] := by rw [elemOf_cons_not_sep c rest hc]; simp
  simp [this]

theorem classify {path : GoString} {r : Nat} {c : UInt8} {rest : GoString}
    (hd : path.drop r = c :: rest) (hc : IsPathSeparator c = false) :
    isDotElem path path.length r = some (decide (elemOf (c :: rest) = [dot])) ∧
    (elemOf (c :: rest) ≠ [dot] →
      isDotDotElem path path.length r = some (decide (elemOf (c :: rest) = dotdot))) := by
  obtain ⟨hget, hdrop, hlt⟩ := drop_cons_facts hd
  rw [elemOf_cons_not_sep c rest hc]
  by_cases hcd : c = dot
  · subst hcd
    cases rest with
    | nil =>
      have hn : r + 1 = path.length := by
        have := List.drop_eq_nil_iff.1 hdrop
        omega
      simp [isDotElem, hget, hn, elemOf]
    | cons s t =>
      obtain ⟨hget1, hdrop1, hlt1⟩ := drop_cons_facts hdrop
      have hn : ¬ (r + 1 = path.length) := by omega
      by_cases hs : IsPathSeparator s = true
      · have he : elemOf (s :: t) = [] := elemOf_of_boundary _ (Or.inr ⟨s, t, rfl, hs⟩)
        simp [isDotElem, hget, hn, hget1, hs, he]
      · have hs' : IsPathSeparator s = false := by simpa using hs
        rw [elemOf_cons_not_sep s t hs']
        refine ⟨by simp [isDotElem, hget, hn, hget1, hs'], fun _ => ?_⟩
        by_cases hsd : s = dot
        · subst hsd
          cases t with
          | nil =>
            have hn2 : r + 1 + 1 = path.length := by
              have := List.drop_eq_nil_iff.1 hdrop1
              omega
            simp [isDotDotElem, hget, hget1, hn2, elemOf, dotdot]
          | cons s2 t2 =>
            obtain ⟨hget2, _, hlt2⟩ := drop_cons_facts hdrop1
            have hn2 : ¬ (r + 2 = path.length) := by omega
            by_cases hs2 : IsPathSeparator s2 = true
            · have he : elemOf (s2 :: t2) = [] :=
                elemOf_of_boundary _ (Or.inr ⟨s2, t2, rfl, hs2⟩)
              simp [isDotDotElem, hget, hget1, hn2, hget2, hs2, he, dotdot]
            · have hs2' : IsPathSeparator s2 = false := by simpa using hs2
              rw [elemOf_cons_not_sep s2 t2 hs2']
              simp [isDotDotElem, hget, hget1, hn2, hget2, hs2', dotdot]
        · simp [isDotDotElem, hget, hget1, hsd, dotdot]
  · simp [isDotElem, isDotDotElem, hget, hcd, dotdot]


/-! ## One iteration of the main loop -/

theorem body_sep {path : GoString} {rooted : Bool} {r dd : Nat} {out : lazybuf}
    {real : List GoString} {k : Nat} {c : UInt8} {rest : GoString}
    (hinv : LoopInv path rooted r dd out real k) (hd : path.drop r = c :: rest)
    (hc : IsPathSeparator c = true) : BodyGoal path rooted r dd out real k := by
  obtain ⟨hget, hdrop, hlt⟩ := drop_cons_facts hd
  obtain ⟨hok, hdd, hrep, hle, _⟩ := hinv
  refine ⟨r + 1, dd, out, real, k, ?_, ⟨hok, hdd, hrep, by omega, fun h => by omega⟩, ?_, ?_⟩
  · simp [cleanBody, hget, hc]
  · simp [hd, hdrop]
  · rw [hd, hdrop, components_sep_cons c rest hc]

theorem body_dot {path : GoString} {rooted : Bool} {r dd : Nat} {out : lazybuf}
    {real : List GoString} {k : Nat} {c : UInt8} {rest : GoString}
    (hinv : LoopInv path rooted r dd out real k) (hd : path.drop r = c :: rest)
    (hc : IsPathSeparator c = false) (he : elemOf (c :: rest) = [dot]) :
    BodyGoal path rooted r dd out real k := by
  obtain ⟨hget, hdrop, hlt⟩ := drop_cons_facts hd
  obtain ⟨hok, hdd, hrep, hle, _⟩ := hinv
  have hcl := (classify hd hc).1
  have hda := drop_after_elem hd
  have hal := afterElem_length (c :: rest)
  rw [he] at hda hal
  simp only [List.length_singleton] at hda hal
  refine ⟨r + 1, dd, out, real, k, ?_, ⟨hok, hdd, hrep, by omega, fun h => by omega⟩, ?_, ?_⟩
  · simp [cleanBody, hget, hc, hcl, he]
  · rw [hd, hda]
    simp only [List.length_cons] at hal ⊢
    omega
  · rw [hd, hda, components_cons_not_sep c rest hc, he]
    simp

theorem body_elem {path : GoString} {rooted : Bool} {r dd : Nat} {out : lazybuf}
    {real : List GoString} {k : Nat} {c : UInt8} {rest : GoString}
    (hinv : LoopInv path rooted r dd out real k) (hd : path.drop r = c :: rest)
    (hc : IsPathSeparator c = false) (he1 : elemOf (c :: rest) ≠ [dot])
    (he2 : elemOf (c :: rest) ≠ dotdot) :
    BodyGoal path rooted r dd out real k := by
  obtain ⟨hget, hdrop, hlt⟩ := drop_cons_facts hd
  obtain ⟨hok, hdd, hrep, hle, hbd⟩ := hinv
  have hcl1 := (classify hd hc).1
  have hcl2 := (classify hd hc).2 he1
  have hda := drop_after_elem hd
  have hal := afterElem_length (c :: rest)
  have hene : elemOf (c :: rest) ≠ [] := by rw [elemOf_cons_not_sep c rest hc]; simp
  have hepos : 0 < (elemOf (c :: rest)).length := List.length_pos.2 hene
  set e := elemOf (c :: rest) with hedef
  set st := real ++ List.replicate k dotdot with hst
  -- every element of the stack is non-empty
  have hne : ∀ x ∈ st, x ≠ [] := by
    intro x hx
    rcases List.mem_append.1 hx with h | h
    · exact (hok.2 x h).1
    · rw [List.eq_of_mem_replicate h]; simp [dotdot]
  have hbase := raw_length_base rooted st hne
  have hnb : ¬ Boundary (path.drop r) := by rw [hd]; exact not_boundary_cons c rest hc
  -- the separator
  have hcond : ((rooted && out.w != 1) || (!rooted && out.w != 0)) = true ↔ st ≠ [] := by
    rw [hrep.2.1]
    have hb := hbase
    rw [raw_nil] at hb
    cases rooted
    · simpa using not_congr hb
    · simpa using not_congr hb
  have hsep : ∃ out1, (if ((rooted && out.w != 1) || (!rooted && out.w != 0)) = true
        then out.append Separator else some out) = some out1
      ∧ Rep path out1 (raw rooted st ++ sepOf st) := by
    by_cases hs : st = []
    · have : ¬ (((rooted && out.w != 1) || (!rooted && out.w != 0)) = true) := by
        rw [hcond]; simp [hs]
      rw [if_neg this]
      refine ⟨out, rfl, ?_⟩
      have h0 : sepOf st = [] := by simp [sepOf, hs]
      rw [h0, List.append_nil]; exact hrep
    · have : (((rooted && out.w != 1) || (!rooted && out.w != 0)) = true) := hcond.2 hs
      rw [if_pos this]
      have hlt2 : (raw rooted st).length < r := by
        rcases Nat.lt_or_eq_of_le hle with h | h
        · exact h
        · rcases hbd h with h1 | h1
          · exact absurd (hbase.1 h1) hs
          · exact absurd h1 hnb
      obtain ⟨out1, h1, h2⟩ := rep_append hrep Separator (by omega)
      refine ⟨out1, h1, ?_⟩
      simpa [sepOf, hs] using h2
  obtain ⟨out1, hout1, hrep1⟩ := hsep
  have hlen1 : (raw rooted st ++ sepOf st).length ≤ r := by
    by_cases hs : st = []
    · simp [sepOf, hs] at hle ⊢; exact hle
    · have hlt2 : (raw rooted st).length < r := by
        rcases Nat.lt_or_eq_of_le hle with h | h
        · exact h
        · rcases hbd h with h1 | h1
          · exact absurd (hbase.1 h1) hs
          · exact absurd h1 hnb
      simp [sepOf, hs]; omega
  obtain ⟨out2, hcopy, hrep2⟩ := copyElem_spec path (path.length - r) r out1 _ hrep1 hlen1
    (Nat.le_refl _)
  rw [hd, ← hedef] at hcopy hrep2
  have hraw : raw rooted ((e :: real) ++ List.replicate k dotdot)
      = raw rooted st ++ sepOf st ++ e := by
    rw [List.cons_append, raw_cons]
  refine ⟨r + e.length, dd, out2, e :: real, k, ?_, ⟨?_, hdd, ?_, ?_, ?_⟩, ?_, ?_⟩
  · simp only [cleanBody, hget, hc, hcl1, hcl2, he1, he2, decide_False, Bool.false_eq_true,
      if_false, hout1, hcopy]
  · refine ⟨hok.1, ?_⟩
    intro x hx
    rcases List.mem_cons.1 hx with h | h
    · rw [h]; exact ⟨hene, he2, elemOf_sepfree _⟩
    · exact hok.2 x h
  · rw [hraw]; exact hrep2
  · rw [hraw]
    simp only [List.length_append] at hlen1 ⊢
    omega
  · intro _
    right
    rw [hda]
    exact afterElem_boundary _
  · rw [hd, hda]
    simp only [List.length_cons] at hal ⊢
    omega
  · rw [hd, hda, components_cons_not_sep c rest hc, ← hedef, if_neg he1]
    simp [cleanStep, he2, hst]


theorem stack_ne_nil {rooted : Bool} {real : List GoString} {k : Nat}
    (hok : StackOK rooted real k) : ∀ x ∈ real ++ List.replicate k dotdot, x ≠ [] := by
  intro x hx
  rcases List.mem_append.1 hx with h | h
  · exact (hok.2 x h).1
  · rw [List.eq_of_mem_replicate h]; simp [dotdot]

theorem dotdot_facts {path : GoString} {r : Nat} {c : UInt8} {rest : GoString}
    (hd : path.drop r = c :: rest) (he : elemOf (c :: rest) = dotdot) :
    path.drop (r + 2) = afterElem (c :: rest) ∧ r + 2 ≤ path.length ∧
      (afterElem (c :: rest)).length + 1 = rest.length := by
  have hda := drop_after_elem hd
  have hal := afterElem_length (c :: rest)
  rw [he] at hda hal
  have h2 : dotdot.length = 2 := rfl
  rw [h2] at hda hal
  have hlen := congrArg List.length hd
  simp only [List.length_drop, List.length_cons] at hlen hal
  exact ⟨hda, by omega, by omega⟩

theorem body_dotdot_pop {path : GoString} {rooted : Bool} {r dd : Nat} {out : lazybuf}
    {top : GoString} {real : List GoString} {k : Nat} {c : UInt8} {rest : GoString}
    (hinv : LoopInv path rooted r dd out (top :: real) k) (hd : path.drop r = c :: rest)
    (hc : IsPathSeparator c = false) (he : elemOf (c :: rest) = dotdot) :
    BodyGoal path rooted r dd out (top :: real) k := by
  obtain ⟨hget, hdrop, hlt⟩ := drop_cons_facts hd
  obtain ⟨hok, hdd, hrep, hle, hbd⟩ := hinv
  have hne1 : elemOf (c :: rest) ≠ [dot] := by rw [he]; simp [dotdot]
  have hcl1 : isDotElem path path.length r = some false := by
    rw [(classify hd hc).1]; simp [hne1]
  have hcl2 : isDotDotElem path path.length r = some true := by
    rw [(classify hd hc).2 hne1]; simp [he]
  obtain ⟨hda, hr2, hal⟩ := dotdot_facts hd he
  obtain ⟨htne, htdd, htsep⟩ := hok.2 top (List.mem_cons_self _ _)
  have hok1 : StackOK rooted real k :=
    ⟨hok.1, fun x hx => hok.2 x (List.mem_cons_of_mem _ hx)⟩
  set st := real ++ List.replicate k dotdot with hst
  have hL : raw rooted (top :: real ++ List.replicate k dotdot)
      = (raw rooted st ++ sepOf st) ++ top := by
    rw [List.cons_append, raw_cons]
  rw [hL] at hrep hle hbd
  have htpos : 0 < top.length := List.length_pos.2 htne
  have hdda : dd ≤ (raw rooted st).length := by
    rw [hdd]; exact raw_length_le rooted real _
  have hlenL : ((raw rooted st ++ sepOf st) ++ top).length
      = (raw rooted st).length + (sepOf st).length + top.length := by
    simp only [List.length_append]
  have hw : out.w = (raw rooted st).length + (sepOf st).length + top.length := by
    rw [hrep.2.1, hlenL]
  -- the scan stops at the end of the written form of the stack below `top`
  have hstop : (raw rooted st).length = dd ∨
      ∃ c, out.index (raw rooted st).length = some c ∧ IsPathSeparator c = true := by
    by_cases hs : st = []
    · left
      have hk : k = 0 := by
        have := congrArg List.length hs
        simp [hst] at this
        exact this.2
      rw [hdd, hs, hk]; rfl
    · right
      refine ⟨Separator, ?_, by simp [IsPathSeparator]⟩
      rw [rep_index hrep (by rw [hlenL]; omega), List.append_assoc,
        List.getElem?_append_right (Nat.le_refl _)]
      simp [sepOf, hs]
  have hmid : ∀ w, (raw rooted st).length < w → w ≤ out.w - 1 →
      ∃ c, out.index w = some c ∧ IsPathSeparator c = false := by
    intro w h1 h2
    have hwlt : w < ((raw rooted st ++ sepOf st) ++ top).length := by rw [hlenL]; omega
    have hge : (raw rooted st ++ sepOf st).length ≤ w := by
      by_cases hs : st = []
      · simp [sepOf, hs] at h1 ⊢; omega
      · simp [sepOf, hs]; omega
    rw [rep_index hrep hwlt, List.getElem?_append_right hge]
    have hi : w - (raw rooted st ++ sepOf st).length < top.length := by
      simp only [List.length_append] at hge ⊢; omega
    refine ⟨top[w - (raw rooted st ++ sepOf st).length], ?_, ?_⟩
    · exact List.getElem?_eq_getElem hi
    · exact htsep _ (List.getElem_mem hi)
  have hbt := backtrack_spec out dd (raw rooted st).length hdda hstop (out.w - 1)
    (by omega) hmid
  have hgt : out.w > dd := by omega
  have hrep1 := rep_trunc hrep (raw rooted st).length (by rw [hlenL]; omega)
  have htake : List.take (raw rooted st).length ((raw rooted st ++ sepOf st) ++ top)
      = raw rooted st := by
    rw [List.append_assoc, List.take_left']
    rfl
  rw [htake] at hrep1
  refine ⟨r + 2, dd, { out with w := (raw rooted st).length }, real, k, ?_,
    ⟨hok1, hdd, hrep1, by rw [← hst]; omega, fun h => by rw [← hst] at h; omega⟩, ?_, ?_⟩
  · simp only [cleanBody, hget, hc, hcl1, hcl2, Bool.false_eq_true, if_false, hgt, if_true, hbt]
  · rw [hd, hda]
    simp only [List.length_cons]
    omega
  · rw [hd, hda, components_cons_not_sep c rest hc, he, if_neg (by simp [dotdot])]
    simp [cleanStep, htdd, hst]


theorem body_dotdot_root {path : GoString} {rooted : Bool} {r dd : Nat} {out : lazybuf}
    {k : Nat} {c : UInt8} {rest : GoString}
    (hinv : LoopInv path rooted r dd out [] k) (hd : path.drop r = c :: rest)
    (hc : IsPathSeparator c = false) (he : elemOf (c :: rest) = dotdot)
    (hroot : rooted = true) : BodyGoal path rooted r dd out [] k := by
  obtain ⟨hget, hdrop, hlt⟩ := drop_cons_facts hd
  obtain ⟨hok, hdd, hrep, hle, hbd⟩ := hinv
  have hne1 : elemOf (c :: rest) ≠ [dot] := by rw [he]; simp [dotdot]
  have hcl1 : isDotElem path path.length r = some false := by
    rw [(classify hd hc).1]; simp [hne1]
  have hcl2 : isDotDotElem path path.length r = some true := by
    rw [(classify hd hc).2 hne1]; simp [he]
  obtain ⟨hda, hr2, hal⟩ := dotdot_facts hd he
  have hk : k = 0 := hok.1 hroot
  have hw : ¬ (out.w > dd) := by
    rw [hrep.2.1, hdd]; simp
  refine ⟨r + 2, dd, out, [], k, ?_, ⟨hok, hdd, hrep, by omega, fun h => by omega⟩, ?_, ?_⟩
  · simp only [cleanBody, hget, hc, hcl1, hcl2, Bool.false_eq_true, if_false, hw, hroot,
      Bool.not_true]
  · rw [hd, hda]
    simp only [List.length_cons]
    omega
  · rw [hd, hda, components_cons_not_sep c rest hc, he, if_neg (by simp [dotdot])]
    simp [cleanStep, hk, hroot]

theorem body_dotdot_push {path : GoString} {rooted : Bool} {r dd : Nat} {out : lazybuf}
    {k : Nat} {c : UInt8} {rest : GoString}
    (hinv : LoopInv path rooted r dd out [] k) (hd : path.drop r = c :: rest)
    (hc : IsPathSeparator c = false) (he : elemOf (c :: rest) = dotdot)
    (hroot : rooted = false) : BodyGoal path rooted r dd out [] k := by
  obtain ⟨hget, hdrop, hlt⟩ := drop_cons_facts hd
  obtain ⟨hok, hdd, hrep, hle, hbd⟩ := hinv
  have hne1 : elemOf (c :: rest) ≠ [dot] := by rw [he]; simp [dotdot]
  have hcl1 : isDotElem path path.length r = some false := by
    rw [(classify hd hc).1]; simp [hne1]
  have hcl2 : isDotDotElem path path.length r = some true := by
    rw [(classify hd hc).2 hne1]; simp [he]
  obtain ⟨hda, hr2, hal⟩ := dotdot_facts hd he
  simp only [List.nil_append] at hrep hle hbd
  set st := List.replicate k dotdot with hst
  have hw : ¬ (out.w > dd) := by
    rw [hrep.2.1, hdd]; simp
  have hnb : ¬ Boundary (path.drop r) := by rw [hd]; exact not_boundary_cons c rest hc
  have hbase := raw_replicate_length rooted k hok.1
  rw [← hst] at hbase
  have hraw0 : (raw rooted []).length = 0 := by rw [raw_nil, hroot]; rfl
  have hstk : st = [] ↔ k = 0 := by
    rw [hst]
    constructor
    · intro h
      have := congrArg List.length h
      simpa using this
    · intro h; rw [h]; rfl
  -- the separator
  have hsep : ∃ out1, (if out.w > 0 then out.append Separator else some out) = some out1
      ∧ Rep path out1 (raw rooted st ++ sepOf st)
      ∧ (raw rooted st ++ sepOf st).length ≤ r := by
    by_cases hs : st = []
    · have h0 : (raw rooted st).length = 0 := by
        rw [hbase.2 (hstk.1 hs), hraw0]
      have : ¬ (out.w > 0) := by rw [hrep.2.1]; omega
      rw [if_neg this]
      have hs0 : sepOf st = [] := by simp [sepOf, hs]
      rw [hs0, List.append_nil]
      exact ⟨out, rfl, hrep, hle⟩
    · have hpos : (raw rooted st).length ≠ (raw rooted []).length := by
        intro h; exact hs (hstk.2 (hbase.1 h))
      have : out.w > 0 := by rw [hrep.2.1]; omega
      rw [if_pos this]
      have hlt2 : (raw rooted st).length < r := by
        rcases Nat.lt_or_eq_of_le hle with h | h
        · exact h
        · rcases hbd h with h1 | h1
          · exact absurd h1 hpos
          · exact absurd h1 hnb
      obtain ⟨out1, h1, h2⟩ := rep_append hrep Separator (by omega)
      have hs1 : sepOf st = [Separator] := by simp [sepOf, hs]
      rw [hs1]
      refine ⟨out1, h1, h2, ?_⟩
      simp only [List.length_append, List.length_singleton]
      omega
  obtain ⟨out1, hout1, hrep1, hlen1⟩ := hsep
  obtain ⟨out2, hout2, hrep2⟩ := rep_append hrep1 dot (by omega)
  obtain ⟨out3, hout3, hrep3⟩ := rep_append hrep2 dot (by
    simp only [List.length_append, List.length_singleton] at hlen1 ⊢; omega)
  have hraw : raw rooted ([] ++ List.replicate (k + 1) dotdot)
      = raw rooted st ++ sepOf st ++ [dot] ++ [dot] := by
    rw [List.nil_append, List.replicate_succ, raw_cons, ← hst]
    simp [dotdot]
  rw [← hraw] at hrep3
  have hlen3 : (raw rooted ([] ++ List.replicate (k + 1) dotdot)).length
      = (raw rooted st ++ sepOf st).length + 2 := by
    rw [hraw]; simp only [List.length_append, List.length_singleton]
  refine ⟨r + 2, out3.w, out3, [], k + 1, ?_, ⟨?_, ?_, hrep3, ?_, ?_⟩, ?_, ?_⟩
  · simp only [cleanBody, hget, hc, hcl1, hcl2, Bool.false_eq_true, if_false, hw, hroot,
      Bool.not_false, if_true, hout1, hout2, hout3]
  · exact ⟨fun h => by rw [hroot] at h; exact absurd h (by simp), fun e he => by simp at he⟩
  · rw [hrep3.2.1]; rfl
  · rw [hlen3]; omega
  · intro _
    right
    rw [hda]
    exact afterElem_boundary _
  · rw [hd, hda]
    simp only [List.length_cons]
    omega
  · rw [hd, hda, components_cons_not_sep c rest hc, he, if_neg (by simp [dotdot])]
    simp only [List.nil_append, List.singleton_append, List.foldl_cons]
    congr 1
    cases k with
    | zero => simp [cleanStep, hroot]
    | succ k => simp [cleanStep, hroot, List.replicate_succ]

theorem cleanBody_spec {path : GoString} {rooted : Bool} {r dd : Nat} {out : lazybuf}
    {real : List GoString} {k : Nat} {c : UInt8} {rest : GoString}
    (hinv : LoopInv path rooted r dd out real k) (hd : path.drop r = c :: rest) :
    BodyGoal path rooted r dd out real k := by
  by_cases hc : IsPathSeparator c = true
  · exact body_sep hinv hd hc
  · have hc' : IsPathSeparator c = false := by simpa using hc
    by_cases h1 : elemOf (c :: rest) = [dot]
    · exact body_dot hinv hd hc' h1
    · by_cases h2 : elemOf (c :: rest) = dotdot
      · cases real with
        | nil =>
          cases rooted with
          | true => exact body_dotdot_root hinv hd hc' h2 rfl
          | false => exact body_dotdot_push hinv hd hc' h2 rfl
        | cons top real => exact body_dotdot_pop hinv hd hc' h2
      · exact body_elem hinv hd hc' h1 h2

/-! ## The main loop and `Clean` -/

theorem cleanLoop_spec (path : GoString) (rooted : Bool) :
    ∀ (fuel r dd : Nat) (out : lazybuf) (real : List GoString) (k : Nat),
      LoopInv path rooted r dd out real k → (path.drop r).length ≤ fuel →
      ∃ out1, cleanLoop path rooted path.length fuel r dd out = some out1 ∧
        Rep path out1 (raw rooted ((components (path.drop r)).foldl (cleanStep rooted)
          (real ++ List.replicate k dotdot))) := by
  intro fuel
  induction fuel with
  | zero =>
    intro r dd out real k hinv hf
    have hnil : path.drop r = [] := List.length_eq_zero.1 (Nat.le_zero.1 hf)
    have hge : ¬ (r < path.length) := by
      have := List.drop_eq_nil_iff.1 hnil; omega
    refine ⟨out, by simp [cleanLoop, hge], ?_⟩
    rw [hnil, components_nil]
    exact hinv.2.2.1
  | succ fuel ih =>
    intro r dd out real k hinv hf
    cases hd : path.drop r with
    | nil =>
      have hge : ¬ (r < path.length) := by
        have := List.drop_eq_nil_iff.1 hd; omega
      refine ⟨out, by simp [cleanLoop, hge], ?_⟩
      rw [components_nil]
      exact hinv.2.2.1
    | cons c rest =>
      obtain ⟨_, _, hlt⟩ := drop_cons_facts hd
      obtain ⟨r1, dd1, out1, real1, k1, hbody, hinv1, hlen, hfold⟩ := cleanBody_spec hinv hd
      obtain ⟨out2, hloop, hrep2⟩ := ih r1 dd1 out1 real1 k1 hinv1 (by omega)
      refine ⟨out2, ?_, ?_⟩
      · simp only [cleanLoop, hlt, if_true, hbody, hloop]
      · rw [← hd, hfold]; exact hrep2


theorem clean_finish {path : GoString} {out2 : lazybuf} {rooted : Bool}
    {stack : List GoString} (hpos : 0 < path.length)
    (hrep : Rep path out2 (raw rooted stack)) :
    (match (if out2.w == 0 then out2.append dot else some out2) with
      | none => none
      | some out3 => out3.string) = some (render rooted stack) := by
  by_cases h0 : raw rooted stack = []
  · have hw : (out2.w == 0) = true := by rw [hrep.2.1, h0]; rfl
    obtain ⟨out3, h3, hrep3⟩ := rep_append hrep dot (by rw [h0]; exact hpos)
    rw [if_pos hw, h3]
    simp only [rep_string hrep3, render, h0, if_true, List.nil_append]
  · have hw : ¬ ((out2.w == 0) = true) := by
      rw [hrep.2.1]
      simpa using h0
    rw [if_neg hw]
    simp only [rep_string hrep, render, h0, if_false]

/-- The function `Clean` refines lexical cleaning as documented: on every
path it returns, and what it returns is `cleanSpec`. -/
theorem Clean_eq_cleanSpec (path : GoString) : Clean path = some (cleanSpec path) := by
  cases path with
  | nil => rfl
  | cons c0 t =>
    have hrep0 : Rep (c0 :: t) { path := c0 :: t, buf := none, w := 0 } [] :=
      ⟨rfl, rfl, ⟨c0 :: t, rfl⟩⟩
    have hpos : 0 < (c0 :: t).length := by simp
    unfold Clean
    simp only [List.cons_ne_nil, if_false, List.getElem?_cons_zero, reduceCtorEq]
    by_cases hc : IsPathSeparator c0 = true
    · obtain ⟨out1, h1, hrep1⟩ := rep_append hrep0 Separator hpos
      have hinv : LoopInv (c0 :: t) true 1 1 out1 [] 0 :=
        ⟨⟨fun _ => rfl, fun e he => by simp at he⟩, rfl, hrep1, Nat.le_refl _, fun _ => Or.inl rfl⟩
      obtain ⟨out2, h2, hrep2⟩ := cleanLoop_spec (c0 :: t) true (c0 :: t).length 1 1 out1 [] 0
        hinv (by simp)
      simp only [hc, if_true, h1, Option.map_some', h2]
      rw [clean_finish hpos hrep2]
      simp [cleanSpec, cleanStack, isRooted, hc, components_sep_cons c0 t hc]
    · have hc' : IsPathSeparator c0 = false := by simpa using hc
      have hinv : LoopInv (c0 :: t) false 0 0 { path := c0 :: t, buf := none, w := 0 } [] 0 :=
        ⟨⟨fun h => by simp at h, fun e he => by simp at he⟩, rfl, hrep0, Nat.le_refl _,
          fun _ => Or.inl rfl⟩
      obtain ⟨out2, h2, hrep2⟩ := cleanLoop_spec (c0 :: t) false (c0 :: t).length 0 0 _ [] 0
        hinv (by simp)
      simp only [hc', Bool.false_eq_true, if_false, h2]
      rw [clean_finish hpos hrep2]
      simp [cleanSpec, cleanStack, isRooted, hc']


/-! ## `Join` of a root and one segment -/

theorem Join_eq_joinSpec (root seg : GoString) (hseg : seg ≠ []) :
    Join [root, seg] = some (joinSpec root seg) := by
  by_cases h : root = []
  · simp [Join, joinSpec, h, hseg, stringsJoin, Clean_eq_cleanSpec]
  · simp [Join, joinSpec, h, stringsJoin, Clean_eq_cleanSpec]

theorem Join_total (elem : List GoString) : ∃ q, Join elem = some q := by
  induction elem with
  | nil => exact ⟨[], rfl⟩
  | cons e rest ih =>
    unfold Join
    by_cases h : e ≠ []
    · rw [if_pos h, Clean_eq_cleanSpec]; exact ⟨_, rfl⟩
    · rw [if_neg h]; exact ih

theorem segOK_conf : SegOK (str "conf") := by
  refine ⟨by decide, by decide, by decide, by decide⟩

theorem segOK_run : SegOK (str "run") := by
  refine ⟨by decide, by decide, by decide, by decide⟩

theorem segOK_data : SegOK (str "data") := by
  refine ⟨by decide, by decide, by decide, by decide⟩

theorem segOK_logs : SegOK (str "logs") := by
  refine ⟨by decide, by decide, by decide, by decide⟩

theorem isRooted_append (root rest : GoString) (h : root ≠ []) :
    isRooted (root ++ rest) = isRooted root := by
  cases root with
  | nil => exact absurd rfl h
  | cons c t => rfl

theorem components_seg (seg : GoString) (h : SegOK seg) : components seg = [seg] := by
  rw [components_sepfree seg h.2.2.2]
  simp [h.1, h.2.1]

theorem render_cons (rooted : Bool) (seg : GoString) (st : List GoString) (h : seg ≠ []) :
    render rooted (seg :: st) = raw rooted st ++ sepOf st ++ seg := by
  unfold render
  rw [raw_cons]
  simp [h]

theorem joinSpec_eq_stem (root seg : GoString) (h : SegOK seg) :
    joinSpec root seg = pathStem root ++ seg := by
  unfold joinSpec pathStem
  by_cases hr : root = []
  · rw [if_pos hr, hr]
    have : cleanStack seg = [seg] := by
      simp [cleanStack, components_seg seg h, cleanStep, h.2.2.1]
    simp only [cleanSpec, this]
    rw [render_cons _ _ _ h.1]
    have hroot : isRooted seg = false := by
      cases seg with
      | nil => rfl
      | cons c t => exact h.2.2.2 c (List.mem_cons_self _ _)
    have h0 : isRooted ([] : GoString) = false := rfl
    simp [hroot, h0, raw_nil, sepOf, cleanStack, components_nil]
  · rw [if_neg hr]
    have hroot : isRooted (root ++ [Separator] ++ seg) = isRooted root := by
      rw [List.append_assoc]; exact isRooted_append root _ hr
    have hst : cleanStack (root ++ [Separator] ++ seg) = seg :: cleanStack root := by
      unfold cleanStack
      rw [hroot]
      have : root ++ [Separator] ++ seg = root ++ Separator :: seg := by simp
      rw [this, components_append_sep, components_seg seg h, List.foldl_append]
      simp [cleanStep, h.2.2.1]
    simp only [cleanSpec, hst, hroot]
    exact render_cons _ _ _ h.1

theorem GetPathConst_eq (env : Env) :
    GetPathConst env
      = some (pathsOf (Getenv env (str "SNAP_DATA")) (Getenv env (str "SNAP_COMMON"))) := by
  unfold GetPathConst pathsOf
  rw [Join_eq_joinSpec _ _ segOK_conf.1, Join_eq_joinSpec _ _ segOK_run.1,
    Join_eq_joinSpec _ _ segOK_data.1, Join_eq_joinSpec _ _ segOK_logs.1]


/-! ## The four paths and the mode map -/

theorem append_ne_of_getLast (x y s1 s2 : GoString) (h1 : s1 ≠ []) (h2 : s2 ≠ [])
    (h : s1.getLast? ≠ s2.getLast?) : x ++ s1 ≠ y ++ s2 := by
  intro heq
  have := congrArg List.getLast? heq
  rw [List.getLast?_append, List.getLast?_append, List.getLast?_eq_getLast s1 h1,
    List.getLast?_eq_getLast s2 h2] at this
  rw [List.getLast?_eq_getLast s1 h1, List.getLast?_eq_getLast s2 h2] at h
  exact h (by simpa using this)

theorem pathsOf_distinct (S C : GoString) :
    (pathsOf S C).ConfPath ≠ (pathsOf S C).RunPath ∧
    (pathsOf S C).ConfPath ≠ (pathsOf S C).DataPath ∧
    (pathsOf S C).ConfPath ≠ (pathsOf S C).LogPath ∧
    (pathsOf S C).RunPath ≠ (pathsOf S C).DataPath ∧
    (pathsOf S C).RunPath ≠ (pathsOf S C).LogPath ∧
    (pathsOf S C).DataPath ≠ (pathsOf S C).LogPath := by
  simp only [pathsOf, joinSpec_eq_stem _ _ segOK_conf, joinSpec_eq_stem _ _ segOK_run,
    joinSpec_eq_stem _ _ segOK_data, joinSpec_eq_stem _ _ segOK_logs]
  refine ⟨?_, ?_, ?_, ?_, ?_, ?_⟩ <;>
    exact append_ne_of_getLast _ _ _ _ (by decide) (by decide) (by decide)

theorem maplit_distinct (k1 k2 k3 k4 : GoString) (v1 v2 v3 v4 : FileMode)
    (h12 : k1 ≠ k2) (h13 : k1 ≠ k3) (h14 : k1 ≠ k4) (h23 : k2 ≠ k3) (h24 : k2 ≠ k4)
    (h34 : k3 ≠ k4) :
    maplit [(k1, v1), (k2, v2), (k3, v3), (k4, v4)]
      = [(k1, v1), (k2, v2), (k3, v3), (k4, v4)] := by
  simp [maplit, mapassign, h12, h13, h14, h23, h24, h34]

theorem GetPathFileMode_eq (env : Env) :
    GetPathFileMode env = some
      [((pathsOf (Getenv env (str "SNAP_DATA")) (Getenv env (str "SNAP_COMMON"))).ConfPath, 0o750),
       ((pathsOf (Getenv env (str "SNAP_DATA")) (Getenv env (str "SNAP_COMMON"))).RunPath, 0o700),
       ((pathsOf (Getenv env (str "SNAP_DATA")) (Getenv env (str "SNAP_COMMON"))).DataPath, 0o700),
       ((pathsOf (Getenv env (str "SNAP_DATA")) (Getenv env (str "SNAP_COMMON"))).LogPath, 0o700)] := by
  obtain ⟨h12, h13, h14, h23, h24, h34⟩ :=
    pathsOf_distinct (Getenv env (str "SNAP_DATA")) (Getenv env (str "SNAP_COMMON"))
  unfold GetPathFileMode
  rw [GetPathConst_eq]
  simp only []
  rw [maplit_distinct _ _ _ _ _ _ _ _ h12 h13 h14 h23 h24 h34]

/-! ## The written form determines the stack prefix -/

theorem splitSep_mem_sepfree (p : GoString) :
    ∀ f ∈ splitSep p, ∀ c ∈ f, IsPathSeparator c = false := by
  induction p with
  | nil => intro f hf; simp [splitSep] at hf; simp [hf]
  | cons a p ih =>
    intro f hf
    by_cases ha : IsPathSeparator a = true
    · simp only [splitSep, ha, if_true, List.mem_cons] at hf
      rcases hf with h | h
      · simp [h]
      · exact ih f h
    · have ha' : IsPathSeparator a = false := by simpa using ha
      cases hs : splitSep p with
      | nil => exact absurd hs (splitSep_ne_nil p)
      | cons g gs =>
        simp only [splitSep, ha', Bool.false_eq_true, if_false, hs, List.mem_cons] at hf
        rcases hf with h | h
        · intro c hc
          rw [h] at hc
          rcases List.mem_cons.1 hc with h1 | h1
          · rw [h1]; exact ha'
          · exact ih g (by rw [hs]; exact List.mem_cons_self _ _) c h1
        · exact ih f (by rw [hs]; exact List.mem_cons_of_mem _ h)

theorem components_mem (p x : GoString) (hx : x ∈ components p) : ElemOK x := by
  unfold components at hx
  rw [List.mem_filter] at hx
  have h2 := hx.2
  simp only [decide_eq_true_eq] at h2
  exact ⟨h2.1, h2.2, splitSep_mem_sepfree p x hx.1⟩

theorem cleanStep_mem (rooted : Bool) (st : List GoString) (e x : GoString)
    (hx : x ∈ cleanStep rooted st e) : x ∈ st ∨ x = e := by
  unfold cleanStep at hx
  split at hx
  · split at hx
    · split at hx
      · simp at hx
      · simp at hx; exact Or.inr hx
    · split at hx
      · exact Or.inl (List.mem_cons_of_mem _ hx)
      · split at hx
        · exact Or.inl hx
        · rcases List.mem_cons.1 hx with h | h
          · exact Or.inr h
          · exact Or.inl h
  · rcases List.mem_cons.1 hx with h | h
    · exact Or.inr h
    · exact Or.inl h

theorem foldl_cleanStep_mem (rooted : Bool) (cs : List GoString) :
    ∀ (st : List GoString) (x : GoString),
      x ∈ cs.foldl (cleanStep rooted) st → x ∈ st ∨ x ∈ cs := by
  induction cs with
  | nil => intro st x hx; exact Or.inl hx
  | cons e cs ih =>
    intro st x hx
    rcases ih _ x hx with h | h
    · rcases cleanStep_mem rooted st e x h with h1 | h1
      · exact Or.inl h1
      · exact Or.inr (by rw [h1]; exact List.mem_cons_self _ _)
    · exact Or.inr (List.mem_cons_of_mem _ h)

theorem cleanStack_mem (p x : GoString) (hx : x ∈ cleanStack p) : ElemOK x := by
  rcases foldl_cleanStep_mem _ _ _ x hx with h | h
  · simp at h
  · exact components_mem p x h

theorem raw_eq_nil_iff (rooted : Bool) (st : List GoString) (h : ∀ x ∈ st, ElemOK x) :
    raw rooted st = [] ↔ rooted = false ∧ st = [] := by
  constructor
  · intro h0
    cases st with
    | nil =>
      cases rooted
      · exact ⟨rfl, rfl⟩
      · simp [raw_nil] at h0
    | cons top rest =>
      rw [raw_cons] at h0
      have := (h top (List.mem_cons_self _ _)).1
      simp [this] at h0
  · rintro ⟨h1, h2⟩
    rw [h1, h2]; rfl

theorem raw_cons_singleton (rooted : Bool) (top : GoString) (rest : List GoString)
    (a : UInt8) (htop : top ≠ []) (h : raw rooted (top :: rest) = [a]) : top = [a] := by
  rw [raw_cons] at h
  have hlen := congrArg List.length h
  simp only [List.length_append, List.length_singleton] at hlen
  have hpos : 0 < top.length := List.length_pos.2 htop
  have h1 : (raw rooted rest ++ sepOf rest).length = 0 := by
    simp only [List.length_append]; omega
  rw [List.length_eq_zero.1 h1] at h
  simpa using h

theorem raw_ne_dot (rooted : Bool) (st : List GoString) (h : ∀ x ∈ st, ElemOK x) :
    raw rooted st ≠ [dot] := by
  intro h0
  cases st with
  | nil =>
    cases rooted
    · simp [raw_nil] at h0
    · rw [raw_nil] at h0
      exact absurd h0 (by decide)
  | cons top rest =>
    have ht := h top (List.mem_cons_self _ _)
    exact ht.2.1 (raw_cons_singleton rooted top rest dot ht.1 h0)

theorem raw_eq_sep (rooted : Bool) (st : List GoString) (h : ∀ x ∈ st, ElemOK x)
    (h0 : raw rooted st = [Separator]) : st = [] := by
  cases st with
  | nil => rfl
  | cons top rest =>
    have ht := h top (List.mem_cons_self _ _)
    have := raw_cons_singleton rooted top rest Separator ht.1 h0
    have hs := ht.2.2 Separator (by rw [this]; exact List.mem_cons_self _ _)
    exact absurd hs (by decide)

theorem render_eq_iff (r1 r2 : Bool) (st1 st2 : List GoString)
    (h1 : ∀ x ∈ st1, ElemOK x) (h2 : ∀ x ∈ st2, ElemOK x) :
    render r1 st1 = render r2 st2 ↔
      raw r1 st1 ++ sepOf st1 = raw r2 st2 ++ sepOf st2 := by
  constructor
  · intro h
    unfold render at h
    by_cases e1 : raw r1 st1 = []
    · by_cases e2 : raw r2 st2 = []
      · obtain ⟨a1, b1⟩ := (raw_eq_nil_iff r1 st1 h1).1 e1
        obtain ⟨a2, b2⟩ := (raw_eq_nil_iff r2 st2 h2).1 e2
        rw [a1, b1, a2, b2]
      · rw [if_pos e1, if_neg e2] at h
        exact absurd h.symm (raw_ne_dot r2 st2 h2)
    · by_cases e2 : raw r2 st2 = []
      · rw [if_neg e1, if_pos e2] at h
        exact absurd h (raw_ne_dot r1 st1 h1)
      · rw [if_neg e1, if_neg e2] at h
        have hsep : sepOf st1 = sepOf st2 := by
          by_cases s1 : st1 = []
          · by_cases s2 : st2 = []
            · rw [s1, s2]
            · have hr : raw r1 st1 = [Separator] := by
                rw [s1, raw_nil] at e1 ⊢
                cases r1
                · simp at e1
                · rfl
              rw [hr] at h
              exact absurd (raw_eq_sep r2 st2 h2 h.symm) s2
          · by_cases s2 : st2 = []
            · have hr : raw r2 st2 = [Separator] := by
                rw [s2, raw_nil] at e2 ⊢
                cases r2
                · simp at e2
                · rfl
              rw [hr] at h
              exact absurd (raw_eq_sep r1 st1 h1 h) s1
            · simp [sepOf, s1, s2]
        rw [h, hsep]
  · intro h
    have hraw : raw r1 st1 = raw r2 st2 := by
      by_cases s1 : st1 = []
      · by_cases s2 : st2 = []
        · simpa [sepOf, s1, s2] using h
        · have e2 : raw r2 st2 ≠ [] := fun e => s2 ((raw_eq_nil_iff r2 st2 h2).1 e).2
          exfalso
          rw [s1, raw_nil] at h
          cases r1
          · simp [sepOf, s2] at h
          · simp [sepOf, s2] at h
            exact e2 h
      · by_cases s2 : st2 = []
        · have e1 : raw r1 st1 ≠ [] := fun e => s1 ((raw_eq_nil_iff r1 st1 h1).1 e).2
          exfalso
          rw [s2, raw_nil] at h
          cases r2
          · simp [sepOf, s1] at h
          · simp [sepOf, s1] at h
            exact e1 h
        · simpa [sepOf, s1, s2] using h
    unfold render
    rw [hraw]

theorem joinSpec_eq_iff (S1 S2 seg : GoString) (hseg : SegOK seg) :
    joinSpec S1 seg = joinSpec S2 seg ↔ Clean S1 = Clean S2 := by
  rw [joinSpec_eq_stem S1 seg hseg, joinSpec_eq_stem S2 seg hseg,
    Clean_eq_cleanSpec, Clean_eq_cleanSpec, List.append_left_inj]
  unfold pathStem cleanSpec
  rw [Option.some.injEq,
    render_eq_iff _ _ _ _ (fun x hx => cleanStack_mem S1 x hx) (fun x hx => cleanStack_mem S2 x hx)]


/-! ## Cleaning a cleaned path -/

theorem cleanStep_normal (rooted : Bool) (e : GoString) (he : ElemOK e)
    (real : List GoString) (k : Nat) (hk : rooted = true → k = 0)
    (hreal : ∀ x ∈ real, SegOK x) :
    ∃ real1 k1, cleanStep rooted (real ++ List.replicate k dotdot) e
        = real1 ++ List.replicate k1 dotdot ∧
      (rooted = true → k1 = 0) ∧ ∀ x ∈ real1, SegOK x := by
  by_cases hdd : e = dotdot
  · cases real with
    | nil =>
      cases k with
      | zero =>
        cases rooted with
        | true => exact ⟨[], 0, by simp [cleanStep, hdd], fun _ => rfl, by simp⟩
        | false => exact ⟨[], 1, by simp [cleanStep, hdd], by simp, by simp⟩
      | succ k =>
        cases rooted with
        | true => exact absurd (hk rfl) (by simp)
        | false =>
          exact ⟨[], k + 2, by simp [cleanStep, hdd, List.replicate_succ], by simp, by simp⟩
    | cons top real =>
      have ht : top ≠ dotdot := (hreal top (List.mem_cons_self _ _)).2.2.1
      exact ⟨real, k, by simp [cleanStep, hdd, ht], hk,
        fun x hx => hreal x (List.mem_cons_of_mem _ hx)⟩
  · refine ⟨e :: real, k, by simp [cleanStep, hdd], hk, ?_⟩
    intro x hx
    rcases List.mem_cons.1 hx with h | h
    · rw [h]; exact ⟨he.1, he.2.1, hdd, he.2.2⟩
    · exact hreal x h

theorem foldl_cleanStep_normal (rooted : Bool) (cs : List GoString)
    (hcs : ∀ e ∈ cs, ElemOK e) :
    ∀ (real : List GoString) (k : Nat), (rooted = true → k = 0) → (∀ x ∈ real, SegOK x) →
      ∃ real1 k1, cs.foldl (cleanStep rooted) (real ++ List.replicate k dotdot)
          = real1 ++ List.replicate k1 dotdot ∧
        (rooted = true → k1 = 0) ∧ ∀ x ∈ real1, SegOK x := by
  induction cs with
  | nil => intro real k hk hreal; exact ⟨real, k, rfl, hk, hreal⟩
  | cons e cs ih =>
    intro real k hk hreal
    obtain ⟨real1, k1, h1, hk1, hreal1⟩ :=
      cleanStep_normal rooted e (hcs e (List.mem_cons_self _ _)) real k hk hreal
    rw [List.foldl_cons, h1]
    exact ih (fun x hx => hcs x (List.mem_cons_of_mem _ hx)) real1 k1 hk1 hreal1

theorem cleanStack_normal (p : GoString) :
    ∃ real k, cleanStack p = real ++ List.replicate k dotdot ∧
      (isRooted p = true → k = 0) ∧ ∀ x ∈ real, SegOK x := by
  have := foldl_cleanStep_normal (isRooted p) (components p) (components_mem p) [] 0
    (fun _ => rfl) (by simp)
  simpa [cleanStack] using this

theorem foldl_cleanStep_dotdots (j k : Nat) :
    (List.replicate k dotdot).foldl (cleanStep false) (List.replicate j dotdot)
      = List.replicate (j + k) dotdot := by
  induction k generalizing j with
  | zero => rfl
  | succ k ih =>
    rw [List.replicate_succ, List.foldl_cons]
    have : cleanStep false (List.replicate j dotdot) dotdot = List.replicate (j + 1) dotdot := by
      cases j with
      | zero => simp [cleanStep]
      | succ j => simp [cleanStep, List.replicate_succ]
    rw [this, ih]
    congr 1
    omega

theorem foldl_cleanStep_reals (rooted : Bool) (base : List GoString) (real : List GoString)
    (hreal : ∀ x ∈ real, SegOK x) :
    real.reverse.foldl (cleanStep rooted) base = real ++ base := by
  induction real with
  | nil => rfl
  | cons x real ih =>
    rw [List.reverse_cons, List.foldl_append, ih (fun y hy => hreal y (List.mem_cons_of_mem _ hy))]
    have hx : x ≠ dotdot := (hreal x (List.mem_cons_self _ _)).2.2.1
    simp [cleanStep, hx]

theorem foldl_cleanStep_reverse (rooted : Bool) (real : List GoString) (k : Nat)
    (hk : rooted = true → k = 0) (hreal : ∀ x ∈ real, SegOK x) :
    (real ++ List.replicate k dotdot).reverse.foldl (cleanStep rooted) []
      = real ++ List.replicate k dotdot := by
  rw [List.reverse_append, List.foldl_append, List.reverse_replicate]
  have h1 : (List.replicate k dotdot).foldl (cleanStep rooted) [] = List.replicate k dotdot := by
    cases rooted with
    | true => rw [hk rfl]; rfl
    | false =>
      have := foldl_cleanStep_dotdots 0 k
      simpa using this
  rw [h1, foldl_cleanStep_reals rooted _ real hreal]

theorem components_stringsJoin (l : List GoString) (hl : ∀ x ∈ l, ElemOK x) :
    components (stringsJoin l [Separator]) = l := by
  induction l with
  | nil => simp [stringsJoin, components_nil]
  | cons a l ih =>
    have ha := hl a (List.mem_cons_self _ _)
    have hca : components a = [a] := by
      rw [components_sepfree a ha.2.2]
      simp [ha.1, ha.2.1]
    cases l with
    | nil => simpa [stringsJoin] using hca
    | cons b l =>
      have : stringsJoin (a :: b :: l) [Separator]
          = a ++ Separator :: stringsJoin (b :: l) [Separator] := by
        simp [stringsJoin]
      rw [this, components_append_sep, hca, ih (fun x hx => hl x (List.mem_cons_of_mem _ hx))]
      rfl

theorem components_render (rooted : Bool) (st : List GoString) (hst : ∀ x ∈ st, ElemOK x) :
    components (render rooted st) = st.reverse := by
  have hrev : ∀ x ∈ st.reverse, ElemOK x := fun x hx => hst x (List.mem_reverse.1 hx)
  unfold render
  by_cases h0 : raw rooted st = []
  · rw [if_pos h0]
    obtain ⟨_, h2⟩ := (raw_eq_nil_iff rooted st hst).1 h0
    rw [h2]
    decide
  · rw [if_neg h0]
    unfold raw
    cases rooted with
    | true =>
      simp only [if_true, List.singleton_append]
      rw [components_sep_cons _ _ (by decide), components_stringsJoin _ hrev]
    | false =>
      simp only [Bool.false_eq_true, if_false, List.nil_append]
      exact components_stringsJoin _ hrev

theorem isRooted_stringsJoin (a : GoString) (l : List GoString) (ha : a ≠ []) :
    isRooted (stringsJoin (a :: l) [Separator]) = isRooted a := by
  cases l with
  | nil => rfl
  | cons b l =>
    have : stringsJoin (a :: b :: l) [Separator]
        = a ++ (Separator :: stringsJoin (b :: l) [Separator]) := by
      simp [stringsJoin]
    rw [this, isRooted_append a _ ha]

theorem isRooted_render (rooted : Bool) (st : List GoString) (hst : ∀ x ∈ st, ElemOK x) :
    isRooted (render rooted st) = rooted := by
  unfold render
  by_cases h0 : raw rooted st = []
  · rw [if_pos h0]
    obtain ⟨h1, _⟩ := (raw_eq_nil_iff rooted st hst).1 h0
    rw [h1]
    decide
  · rw [if_neg h0]
    cases rooted with
    | true => simp [raw, isRooted, IsPathSeparator]
    | false =>
      cases hr : st.reverse with
      | nil =>
        have : st = [] := by simpa using hr
        rw [this] at h0
        exact absurd (by decide) h0
      | cons a l =>
        have ha := hst a (List.mem_reverse.1 (by rw [hr]; exact List.mem_cons_self _ _))
        simp only [raw, Bool.false_eq_true, if_false, List.nil_append, hr]
        rw [isRooted_stringsJoin a l ha.1]
        cases a with
        | nil => exact absurd rfl ha.1
        | cons c t => exact ha.2.2 c (List.mem_cons_self _ _)

theorem segOK_elemOK (x : GoString) (h : SegOK x) : ElemOK x := ⟨h.1, h.2.1, h.2.2.2⟩

theorem normal_elemOK (real : List GoString) (k : Nat) (hreal : ∀ x ∈ real, SegOK x) :
    ∀ x ∈ real ++ List.replicate k dotdot, ElemOK x := by
  intro x hx
  rcases List.mem_append.1 hx with h | h
  · exact segOK_elemOK x (hreal x h)
  · rw [List.eq_of_mem_replicate h]
    exact ⟨by decide, by decide, by decide⟩

theorem cleanSpec_render (rooted : Bool) (real : List GoString) (k : Nat)
    (hk : rooted = true → k = 0) (hreal : ∀ x ∈ real, SegOK x) :
    cleanSpec (render rooted (real ++ List.replicate k dotdot))
      = render rooted (real ++ List.replicate k dotdot) := by
  have hok := normal_elemOK real k hreal
  unfold cleanSpec cleanStack
  rw [isRooted_render rooted _ hok, components_render rooted _ hok,
    foldl_cleanStep_reverse rooted real k hk hreal]

theorem cleanSpec_idem (p : GoString) : cleanSpec (cleanSpec p) = cleanSpec p := by
  obtain ⟨real, k, h, hk, hreal⟩ := cleanStack_normal p
  have : cleanSpec p = render (isRooted p) (real ++ List.replicate k dotdot) := by
    unfold cleanSpec; rw [h]
  rw [this]
  exact cleanSpec_render (isRooted p) real k hk hreal

theorem joinSpec_fixed (root seg : GoString) :
    Clean (joinSpec root seg) = some (joinSpec root seg) := by
  unfold joinSpec
  split <;> rw [Clean_eq_cleanSpec, cleanSpec_idem]

theorem joinSpec_cleaned (root seg : GoString) (hseg : SegOK seg) :
    joinSpec (cleanSpec root) seg = joinSpec root seg := by
  rw [joinSpec_eq_iff _ _ _ hseg, Clean_eq_cleanSpec, Clean_eq_cleanSpec, cleanSpec_idem]

theorem pathStem_end (root : GoString) :
    pathStem root = [] ∨ (pathStem root).getLast? = some Separator := by
  unfold pathStem
  by_cases h : cleanStack root = []
  · rw [h, raw_nil]
    cases isRooted root
    · left; rfl
    · right; rfl
  · right
    simp [sepOf, h]

theorem components_stem_seg (root seg : GoString) (hseg : SegOK seg) :
    (components (pathStem root ++ seg)).getLast? = some seg := by
  rcases pathStem_end root with h | h
  · rw [h, List.nil_append, components_seg seg hseg]
    rfl
  · obtain ⟨X, hX⟩ := List.getLast?_eq_some_iff.1 h
    rw [hX, List.append_assoc, List.singleton_append, components_append_sep,
      components_seg seg hseg]
    simp

theorem pathsOf_cleaned (S C : GoString) : pathsOf (cleanSpec S) (cleanSpec C) = pathsOf S C := by
  simp only [pathsOf, joinSpec_cleaned _ _ segOK_conf, joinSpec_cleaned _ _ segOK_run,
    joinSpec_cleaned _ _ segOK_data, joinSpec_cleaned _ _ segOK_logs]

theorem Getenv_snapEnv (S C : GoString) :
    Getenv (snapEnv S C) (str "SNAP_DATA") = S ∧ Getenv (snapEnv S C) (str "SNAP_COMMON") = C := by
  constructor
  · simp [Getenv, snapEnv]
  · have : str "SNAP_COMMON" ≠ str "SNAP_DATA" := by decide
    simp [Getenv, snapEnv, this]

theorem joinSpec_canonical (root seg : GoString) (hseg : SegOK seg) :
    Canonical (joinSpec root seg) := by
  obtain ⟨real, k, h, hk, hreal⟩ := cleanStack_normal root
  refine ⟨isRooted root, seg :: real, k, ?_, hk, ?_⟩
  · rw [joinSpec_eq_stem root seg hseg, List.cons_append, render_cons _ _ _ hseg.1, ← h]
    rfl
  · intro x hx
    rcases List.mem_cons.1 hx with h1 | h1
    · rw [h1]; exact hseg
    · exact hreal x h1

theorem canonical_fixed (p : GoString) (h : Canonical p) : Clean p = some p := by
  obtain ⟨rooted, real, k, hp, hk, hreal⟩ := h
  rw [Clean_eq_cleanSpec, hp, cleanSpec_render rooted real k hk hreal]

/-! ## Properties of `GetPathConst` and `GetPathFileMode` -/

/-- C1: for non-empty roots `S` (value of `SNAP_DATA`) and `C` (value of
`SNAP_COMMON`), `GetPathConst` returns exactly the record whose `ConfPath` and
`RunPath` are the lexically cleaned forms of `S + "/" + "conf"` and
`S + "/" + "run"`, and whose `DataPath` and `LogPath` are the cleaned forms of
`C + "/" + "data"` and `C + "/" + "logs"`. -/
theorem C1_GetPathConst_joins (env : Env) (S C : GoString)
    (hS : Getenv env (str "SNAP_DATA") = S) (hC : Getenv env (str "SNAP_COMMON") = C)
    (hSne : S ≠ []) (hCne : C ≠ []) :
    GetPathConst env = some
      { ConfPath := cleanSpec (S ++ [Separator] ++ str "conf"),
        RunPath := cleanSpec (S ++ [Separator] ++ str "run"),
        DataPath := cleanSpec (C ++ [Separator] ++ str "data"),
        LogPath := cleanSpec (C ++ [Separator] ++ str "logs") } := by
  rw [GetPathConst_eq, hS, hC]
  simp [pathsOf, joinSpec, hSne, hCne]

theorem C1_GetPathConst_joins_witness :
    GetPathConst (snapEnv (str "/snap/data//x/../") (str "common/./c")) = some
      { ConfPath := cleanSpec (str "/snap/data//x/../" ++ [Separator] ++ str "conf"),
        RunPath := cleanSpec (str "/snap/data//x/../" ++ [Separator] ++ str "run"),
        DataPath := cleanSpec (str "common/./c" ++ [Separator] ++ str "data"),
        LogPath := cleanSpec (str "common/./c" ++ [Separator] ++ str "logs") } :=
  C1_GetPathConst_joins _ _ _ (by decide) (by decide) (by decide) (by decide)

/-- C2: for every environment, the map returned by `GetPathFileMode` maps
the `ConfPath` of `GetPathConst` to mode 0750 and its `RunPath`, `DataPath`
and `LogPath` to mode 0700 each: no entry is overwritten and no lookup
misses. -/
theorem C2_modes_of_paths (env : Env) :
    ∃ pc m, GetPathConst env = some pc ∧ GetPathFileMode env = some m ∧
      mapaccess m pc.ConfPath = some 0o750 ∧ mapaccess m pc.RunPath = some 0o700 ∧
      mapaccess m pc.DataPath = some 0o700 ∧ mapaccess m pc.LogPath = some 0o700 := by
  obtain ⟨h12, h13, h14, h23, h24, h34⟩ :=
    pathsOf_distinct (Getenv env (str "SNAP_DATA")) (Getenv env (str "SNAP_COMMON"))
  refine ⟨_, _, GetPathConst_eq env, GetPathFileMode_eq env, ?_, ?_, ?_, ?_⟩
  · simp [mapaccess]
  · simp [mapaccess, h12]
  · simp [mapaccess, h13, h23]
  · simp [mapaccess, h14, h24, h34]

/-- C3: for every environment, the keys of the map returned by
`GetPathFileMode` are exactly the four paths of the record returned by
`GetPathConst`: every key is one of the four paths and each of the four paths
is a key. -/
theorem C3_keys_are_paths (env : Env) :
    ∃ pc m, GetPathConst env = some pc ∧ GetPathFileMode env = some m ∧
      ∀ key, key ∈ mapkeys m ↔
        (key = pc.ConfPath ∨ key = pc.RunPath ∨ key = pc.DataPath ∨ key = pc.LogPath) := by
  refine ⟨_, _, GetPathConst_eq env, GetPathFileMode_eq env, ?_⟩
  intro key
  simp [mapkeys]

/-- C4: for every environment, the map returned by `GetPathFileMode` has
exactly four entries, under four pairwise different keys. -/
theorem C4_four_entries (env : Env) :
    ∃ m, GetPathFileMode env = some m ∧ m.length = 4 ∧ (mapkeys m).Nodup := by
  obtain ⟨h12, h13, h14, h23, h24, h34⟩ :=
    pathsOf_distinct (Getenv env (str "SNAP_DATA")) (Getenv env (str "SNAP_COMMON"))
  refine ⟨_, GetPathFileMode_eq env, rfl, ?_⟩
  simp [mapkeys, h12, h13, h14, h23, h24, h34]

/-- C5: with `SNAP_DATA = "/var/snap/myservice/current"` and
`SNAP_COMMON = "/var/snap/myservice/common"`, `GetPathConst` returns the paths
`.../current/conf`, `.../current/run`, `.../common/data`, `.../common/logs`,
and `GetPathFileMode` maps the first to 0750 and the other three to 0700. -/
theorem C5_scenario (env : Env)
    (hS : env (str "SNAP_DATA") = some (str "/var/snap/myservice/current"))
    (hC : env (str "SNAP_COMMON") = some (str "/var/snap/myservice/common")) :
    GetPathConst env = some
      { ConfPath := str "/var/snap/myservice/current/conf",
        RunPath := str "/var/snap/myservice/current/run",
        DataPath := str "/var/snap/myservice/common/data",
        LogPath := str "/var/snap/myservice/common/logs" } ∧
    ∃ m, GetPathFileMode env = some m ∧ m.length = 4 ∧
      mapaccess m (str "/var/snap/myservice/current/conf") = some 0o750 ∧
      mapaccess m (str "/var/snap/myservice/current/run") = some 0o700 ∧
      mapaccess m (str "/var/snap/myservice/common/data") = some 0o700 ∧
      mapaccess m (str "/var/snap/myservice/common/logs") = some 0o700 := by
  have h1 : Getenv env (str "SNAP_DATA") = str "/var/snap/myservice/current" := by
    simp [Getenv, hS]
  have h2 : Getenv env (str "SNAP_COMMON") = str "/var/snap/myservice/common" := by
    simp [Getenv, hC]
  have hp : pathsOf (str "/var/snap/myservice/current") (str "/var/snap/myservice/common")
      = { ConfPath := str "/var/snap/myservice/current/conf",
          RunPath := str "/var/snap/myservice/current/run",
          DataPath := str "/var/snap/myservice/common/data",
          LogPath := str "/var/snap/myservice/common/logs" } := by decide
  refine ⟨by rw [GetPathConst_eq, h1, h2, hp], _, GetPathFileMode_eq env, rfl, ?_⟩
  rw [h1, h2, hp]
  decide

theorem C5_scenario_witness :
    GetPathConst (snapEnv (str "/var/snap/myservice/current")
        (str "/var/snap/myservice/common")) = some
      { ConfPath := str "/var/snap/myservice/current/conf",
        RunPath := str "/var/snap/myservice/current/run",
        DataPath := str "/var/snap/myservice/common/data",
        LogPath := str "/var/snap/myservice/common/logs" } ∧
    ∃ m, GetPathFileMode (snapEnv (str "/var/snap/myservice/current")
        (str "/var/snap/myservice/common")) = some m ∧ m.length = 4 ∧
      mapaccess m (str "/var/snap/myservice/current/conf") = some 0o750 ∧
      mapaccess m (str "/var/snap/myservice/current/run") = some 0o700 ∧
      mapaccess m (str "/var/snap/myservice/common/data") = some 0o700 ∧
      mapaccess m (str "/var/snap/myservice/common/logs") = some 0o700 :=
  C5_scenario _ (by decide) (by decide)

/-- C6: when each of the two roots is unset or set to the empty string,
`GetPathConst` does not fail and returns the bare relative segments `conf`,
`run`, `data`, `logs`, which are the joins of the empty string with each
segment; an unset root gives the same result as an empty one. -/
theorem C6_empty_roots (env : Env)
    (hS : env (str "SNAP_DATA") = none ∨ env (str "SNAP_DATA") = some [])
    (hC : env (str "SNAP_COMMON") = none ∨ env (str "SNAP_COMMON") = some []) :
    GetPathConst env = some
      { ConfPath := str "conf", RunPath := str "run",
        DataPath := str "data", LogPath := str "logs" } ∧
    Join [[], str "conf"] = some (str "conf") ∧ Join [[], str "run"] = some (str "run") ∧
    Join [[], str "data"] = some (str "data") ∧ Join [[], str "logs"] = some (str "logs") := by
  have h1 : Getenv env (str "SNAP_DATA") = [] := by
    rcases hS with h | h <;> simp [Getenv, h]
  have h2 : Getenv env (str "SNAP_COMMON") = [] := by
    rcases hC with h | h <;> simp [Getenv, h]
  refine ⟨?_, by decide, by decide, by decide, by decide⟩
  rw [GetPathConst_eq, h1, h2]
  decide

theorem C6_empty_roots_witness :
    GetPathConst (fun key => if key = str "SNAP_DATA" then some [] else none) = some
      { ConfPath := str "conf", RunPath := str "run",
        DataPath := str "data", LogPath := str "logs" } ∧
    Join [[], str "conf"] = some (str "conf") ∧ Join [[], str "run"] = some (str "run") ∧
    Join [[], str "data"] = some (str "data") ∧ Join [[], str "logs"] = some (str "logs") :=
  C6_empty_roots _ (Or.inr (by decide)) (Or.inl (by decide))


/-- C7: frame.  The `DataPath` and `LogPath` of two environments with the
same value of `SNAP_COMMON` are equal, whatever their values of `SNAP_DATA`
and of any other variable are; the `ConfPath` and `RunPath` of two
environments with the same value of `SNAP_DATA` are equal, whatever their
values of `SNAP_COMMON` and of any other variable are. -/
theorem C7_frame (envA envB envC : Env)
    (hAB : Getenv envA (str "SNAP_COMMON") = Getenv envB (str "SNAP_COMMON"))
    (hAC : Getenv envA (str "SNAP_DATA") = Getenv envC (str "SNAP_DATA")) :
    ∃ pcA pcB pcC, GetPathConst envA = some pcA ∧ GetPathConst envB = some pcB ∧
      GetPathConst envC = some pcC ∧
      pcA.DataPath = pcB.DataPath ∧ pcA.LogPath = pcB.LogPath ∧
      pcA.ConfPath = pcC.ConfPath ∧ pcA.RunPath = pcC.RunPath := by
  refine ⟨_, _, _, GetPathConst_eq envA, GetPathConst_eq envB, GetPathConst_eq envC, ?_⟩
  simp [pathsOf, hAB, hAC]

theorem C7_frame_witness :
    ∃ pcA pcB pcC,
      GetPathConst (snapEnv (str "/a") (str "/c")) = some pcA ∧
      GetPathConst (fun key => if key = str "HOME" then some (str "/root")
        else snapEnv (str "/b") (str "/c") key) = some pcB ∧
      GetPathConst (snapEnv (str "/a") (str "/d")) = some pcC ∧
      pcA.DataPath = pcB.DataPath ∧ pcA.LogPath = pcB.LogPath ∧
      pcA.ConfPath = pcC.ConfPath ∧ pcA.RunPath = pcC.RunPath :=
  C7_frame _ _ _ (by decide) (by decide)

/-- C8, as stated, fails: the state roots `"/a"` and `"/a/"` are different
strings and give the same `ConfPath` and the same `RunPath`; the common roots
`"/c"` and `"/c/."` are different strings and give the same `DataPath` and
the same `LogPath`. -/
theorem C8_counterexample :
    str "/a" ≠ str "/a/" ∧ str "/c" ≠ str "/c/." ∧
    GetPathConst (snapEnv (str "/a") (str "/c")) = some
      { ConfPath := str "/a/conf", RunPath := str "/a/run",
        DataPath := str "/c/data", LogPath := str "/c/logs" } ∧
    GetPathConst (snapEnv (str "/a/") (str "/c")) = some
      { ConfPath := str "/a/conf", RunPath := str "/a/run",
        DataPath := str "/c/data", LogPath := str "/c/logs" } ∧
    GetPathConst (snapEnv (str "/a") (str "/c/.")) = some
      { ConfPath := str "/a/conf", RunPath := str "/a/run",
        DataPath := str "/c/data", LogPath := str "/c/logs" } := by
  decide

/-- C8, amended: each path field is an injective function of the cleaned form
of its root.  For two environments, the `ConfPath` values are equal exactly
when `Clean` of the two values of `SNAP_DATA` are equal, and so are the
`RunPath` values; the `DataPath` values are equal exactly when `Clean` of the
two values of `SNAP_COMMON` are equal, and so are the `LogPath` values. -/
theorem C8_injective_up_to_Clean (env1 env2 : Env) (pc1 pc2 : PathConst)
    (h1 : GetPathConst env1 = some pc1) (h2 : GetPathConst env2 = some pc2) :
    (pc1.ConfPath = pc2.ConfPath ↔
      Clean (Getenv env1 (str "SNAP_DATA")) = Clean (Getenv env2 (str "SNAP_DATA"))) ∧
    (pc1.RunPath = pc2.RunPath ↔
      Clean (Getenv env1 (str "SNAP_DATA")) = Clean (Getenv env2 (str "SNAP_DATA"))) ∧
    (pc1.DataPath = pc2.DataPath ↔
      Clean (Getenv env1 (str "SNAP_COMMON")) = Clean (Getenv env2 (str "SNAP_COMMON"))) ∧
    (pc1.LogPath = pc2.LogPath ↔
      Clean (Getenv env1 (str "SNAP_COMMON")) = Clean (Getenv env2 (str "SNAP_COMMON"))) := by
  rw [GetPathConst_eq, Option.some.injEq] at h1 h2
  subst h1 h2
  exact ⟨joinSpec_eq_iff _ _ _ segOK_conf, joinSpec_eq_iff _ _ _ segOK_run,
    joinSpec_eq_iff _ _ _ segOK_data, joinSpec_eq_iff _ _ _ segOK_logs⟩

theorem C8_injective_up_to_Clean_witness :
    (str "/a/conf" = str "/a/conf" ↔
      Clean (Getenv (snapEnv (str "/a") (str "/c")) (str "SNAP_DATA"))
        = Clean (Getenv (snapEnv (str "/b/../a") (str "d")) (str "SNAP_DATA"))) ∧
    (str "/a/run" = str "/a/run" ↔
      Clean (Getenv (snapEnv (str "/a") (str "/c")) (str "SNAP_DATA"))
        = Clean (Getenv (snapEnv (str "/b/../a") (str "d")) (str "SNAP_DATA"))) ∧
    (str "/c/data" = str "d/data" ↔
      Clean (Getenv (snapEnv (str "/a") (str "/c")) (str "SNAP_COMMON"))
        = Clean (Getenv (snapEnv (str "/b/../a") (str "d")) (str "SNAP_COMMON"))) ∧
    (str "/c/logs" = str "d/logs" ↔
      Clean (Getenv (snapEnv (str "/a") (str "/c")) (str "SNAP_COMMON"))
        = Clean (Getenv (snapEnv (str "/b/../a") (str "d")) (str "SNAP_COMMON"))) :=
  C8_injective_up_to_Clean (snapEnv (str "/a") (str "/c")) (snapEnv (str "/b/../a") (str "d"))
    ⟨str "/a/conf", str "/a/run", str "/c/data", str "/c/logs"⟩
    ⟨str "/a/conf", str "/a/run", str "d/data", str "d/logs"⟩
    (by decide) (by decide)


/-- C9: both operations are total.  For every environment `GetPathConst`
returns a record and `GetPathFileMode` returns a map; for every path
whatsoever `Clean` returns, and for every list of elements `Join` returns:
no index or slice expression of the computation is out of range. -/
theorem C9_total (env : Env) (path : GoString) (elem : List GoString) :
    (∃ pc, GetPathConst env = some pc) ∧ (∃ m, GetPathFileMode env = some m) ∧
    (∃ q, Clean path = some q) ∧ (∃ q, Join elem = some q) :=
  ⟨⟨_, GetPathConst_eq env⟩, ⟨_, GetPathFileMode_eq env⟩, ⟨_, Clean_eq_cleanSpec path⟩,
    Join_total elem⟩

/-- C10: determinism.  Two environments with the same values of `SNAP_DATA`
and `SNAP_COMMON` (in particular the same environment, twice) give equal
records and equal maps, and the keys `GetPathFileMode` maps are the paths
`GetPathConst` returns for that environment. -/
theorem C10_deterministic (env1 env2 : Env)
    (hS : Getenv env1 (str "SNAP_DATA") = Getenv env2 (str "SNAP_DATA"))
    (hC : Getenv env1 (str "SNAP_COMMON") = Getenv env2 (str "SNAP_COMMON")) :
    GetPathConst env1 = GetPathConst env2 ∧ GetPathFileMode env1 = GetPathFileMode env2 ∧
    ∃ pc, GetPathConst env1 = some pc ∧
      GetPathFileMode env1 = some (maplit [(pc.ConfPath, 0o750), (pc.RunPath, 0o700),
        (pc.DataPath, 0o700), (pc.LogPath, 0o700)]) := by
  refine ⟨by rw [GetPathConst_eq, GetPathConst_eq, hS, hC],
    by rw [GetPathFileMode_eq, GetPathFileMode_eq, hS, hC], _, GetPathConst_eq env1, ?_⟩
  unfold GetPathFileMode
  rw [GetPathConst_eq]

theorem C10_deterministic_witness :
    GetPathConst (snapEnv (str "/a") (str "/c"))
      = GetPathConst (fun key => if key = str "HOME" then some (str "/root")
          else snapEnv (str "/a") (str "/c") key) ∧
    GetPathFileMode (snapEnv (str "/a") (str "/c"))
      = GetPathFileMode (fun key => if key = str "HOME" then some (str "/root")
          else snapEnv (str "/a") (str "/c") key) ∧
    ∃ pc, GetPathConst (snapEnv (str "/a") (str "/c")) = some pc ∧
      GetPathFileMode (snapEnv (str "/a") (str "/c"))
        = some (maplit [(pc.ConfPath, 0o750), (pc.RunPath, 0o700),
            (pc.DataPath, 0o700), (pc.LogPath, 0o700)]) :=
  C10_deterministic _ _ (by decide) (by decide)

/-- C11: canonical join.  For every environment each of the four paths of
`GetPathConst` is a fixed point of `Clean` and is in canonical written form
(no empty element, no `.` element, no separator at the end, `..` only at the
front of a path that is not rooted), so a path differs from the plain
string `root + "/" + segment` whenever that string is not a fixed point of
`Clean`; the state root `"/snap/"` gives the `ConfPath` `"/snap/conf"` and the
state root `"/"` gives `"/conf"`. -/
theorem C11_canonical (env : Env) :
    ∃ pc, GetPathConst env = some pc ∧
      Clean pc.ConfPath = some pc.ConfPath ∧ Clean pc.RunPath = some pc.RunPath ∧
      Clean pc.DataPath = some pc.DataPath ∧ Clean pc.LogPath = some pc.LogPath ∧
      Canonical pc.ConfPath ∧ Canonical pc.RunPath ∧
      Canonical pc.DataPath ∧ Canonical pc.LogPath ∧
      (∀ seg, Clean (Getenv env (str "SNAP_DATA") ++ [Separator] ++ seg)
          ≠ some (Getenv env (str "SNAP_DATA") ++ [Separator] ++ seg) →
        pc.ConfPath ≠ Getenv env (str "SNAP_DATA") ++ [Separator] ++ seg ∧
        pc.RunPath ≠ Getenv env (str "SNAP_DATA") ++ [Separator] ++ seg) ∧
      (∀ seg, Clean (Getenv env (str "SNAP_COMMON") ++ [Separator] ++ seg)
          ≠ some (Getenv env (str "SNAP_COMMON") ++ [Separator] ++ seg) →
        pc.DataPath ≠ Getenv env (str "SNAP_COMMON") ++ [Separator] ++ seg ∧
        pc.LogPath ≠ Getenv env (str "SNAP_COMMON") ++ [Separator] ++ seg) ∧
      (∀ C, (GetPathConst (snapEnv (str "/snap/") C)).map PathConst.ConfPath
        = some (str "/snap/conf")) ∧
      (∀ C, (GetPathConst (snapEnv (str "/") C)).map PathConst.ConfPath
        = some (str "/conf")) := by
  refine ⟨_, GetPathConst_eq env, joinSpec_fixed _ _, joinSpec_fixed _ _, joinSpec_fixed _ _,
    joinSpec_fixed _ _, joinSpec_canonical _ _ segOK_conf, joinSpec_canonical _ _ segOK_run,
    joinSpec_canonical _ _ segOK_data, joinSpec_canonical _ _ segOK_logs, ?_, ?_, ?_, ?_⟩
  · intro seg hne
    constructor
    · intro h
      apply hne
      rw [← h]
      exact joinSpec_fixed _ _
    · intro h
      apply hne
      rw [← h]
      exact joinSpec_fixed _ _
  · intro seg hne
    constructor
    · intro h
      apply hne
      rw [← h]
      exact joinSpec_fixed _ _
    · intro h
      apply hne
      rw [← h]
      exact joinSpec_fixed _ _
  · intro C
    rw [GetPathConst_eq, (Getenv_snapEnv _ C).1]
    simp only [Option.map_some', pathsOf]
    decide
  · intro C
    rw [GetPathConst_eq, (Getenv_snapEnv _ C).1]
    simp only [Option.map_some', pathsOf]
    decide

theorem C11_canonical_witness :
    ∃ pc, GetPathConst (snapEnv (str "/snap/") (str "c/../d")) = some pc ∧
      pc.ConfPath ≠ str "/snap/" ++ [Separator] ++ str "conf" ∧
      pc.LogPath ≠ str "c/../d" ++ [Separator] ++ str "logs" ∧
      Clean pc.ConfPath = some pc.ConfPath ∧ Clean pc.LogPath = some pc.LogPath := by
  obtain ⟨pc, h, h1, _, _, h4, _, _, _, _, h5, h6, _, _⟩ :=
    C11_canonical (snapEnv (str "/snap/") (str "c/../d"))
  exact ⟨pc, h, (h5 (str "conf") (by decide)).1, (h6 (str "logs") (by decide)).2, h1, h4⟩

/-- C12: permission bits.  For every environment every entry of the map of
`GetPathFileMode` grants the owner read, write and execute
(`mode AND 0700 = 0700`), grants nothing to others (`mode AND 0007 = 0`) and
sets no bit outside the nine permission bits (`mode AND NOT 0777 = 0` on 32
bits); the group bits are read and execute (`0050`) at `ConfPath` and zero at
`RunPath`, `DataPath` and `LogPath`, so the mode of `ConfPath` holds every bit
of each other mode and one more. -/
theorem C12_permission_bits (env : Env) :
    ∃ pc m cm rm dm lm, GetPathConst env = some pc ∧ GetPathFileMode env = some m ∧
      (∀ e ∈ m, e.2 &&& 0o700 = 0o700 ∧ e.2 &&& 0o007 = 0 ∧
        e.2 &&& (2 ^ 32 - 1 - 0o777) = 0) ∧
      mapaccess m pc.ConfPath = some cm ∧ mapaccess m pc.RunPath = some rm ∧
      mapaccess m pc.DataPath = some dm ∧ mapaccess m pc.LogPath = some lm ∧
      cm &&& 0o070 = 0o050 ∧ rm &&& 0o070 = 0 ∧ dm &&& 0o070 = 0 ∧ lm &&& 0o070 = 0 ∧
      cm &&& rm = rm ∧ cm ≠ rm ∧ cm &&& dm = dm ∧ cm ≠ dm ∧ cm &&& lm = lm ∧ cm ≠ lm := by
  obtain ⟨h12, h13, h14, h23, h24, h34⟩ :=
    pathsOf_distinct (Getenv env (str "SNAP_DATA")) (Getenv env (str "SNAP_COMMON"))
  refine ⟨_, _, 0o750, 0o700, 0o700, 0o700, GetPathConst_eq env, GetPathFileMode_eq env,
    ?_, ?_, ?_, ?_, ?_, by decide, by decide, by decide, by decide, by decide, by decide,
    by decide, by decide, by decide, by decide⟩
  · intro e he
    simp only [List.mem_cons, List.mem_singleton, List.not_mem_nil, or_false] at he
    rcases he with h | h | h | h <;> subst h <;> refine ⟨?_, ?_, ?_⟩ <;> dsimp only <;> decide
  · simp [mapaccess]
  · simp [mapaccess, h12]
  · simp [mapaccess, h13, h23]
  · simp [mapaccess, h14, h24, h34]

/-- C13: for every environment the last path name element of `ConfPath` is
`conf`, of `RunPath` is `run`, of `DataPath` is `data` and of `LogPath` is
`logs`: each path is its segment after a stem that is empty or ends with a
separator, whatever the roots hold; hence the four paths are pairwise
different, also when both roots are the same string. -/
theorem C13_last_element (env : Env) :
    ∃ pc, GetPathConst env = some pc ∧
      (∃ stem, pc.ConfPath = stem ++ str "conf" ∧
        (stem = [] ∨ stem.getLast? = some Separator)) ∧
      (∃ stem, pc.RunPath = stem ++ str "run" ∧
        (stem = [] ∨ stem.getLast? = some Separator)) ∧
      (∃ stem, pc.DataPath = stem ++ str "data" ∧
        (stem = [] ∨ stem.getLast? = some Separator)) ∧
      (∃ stem, pc.LogPath = stem ++ str "logs" ∧
        (stem = [] ∨ stem.getLast? = some Separator)) ∧
      (components pc.ConfPath).getLast? = some (str "conf") ∧
      (components pc.RunPath).getLast? = some (str "run") ∧
      (components pc.DataPath).getLast? = some (str "data") ∧
      (components pc.LogPath).getLast? = some (str "logs") ∧
      [pc.ConfPath, pc.RunPath, pc.DataPath, pc.LogPath].Nodup := by
  obtain ⟨h12, h13, h14, h23, h24, h34⟩ :=
    pathsOf_distinct (Getenv env (str "SNAP_DATA")) (Getenv env (str "SNAP_COMMON"))
  refine ⟨_, GetPathConst_eq env,
    ⟨_, joinSpec_eq_stem _ _ segOK_conf, pathStem_end _⟩,
    ⟨_, joinSpec_eq_stem _ _ segOK_run, pathStem_end _⟩,
    ⟨_, joinSpec_eq_stem _ _ segOK_data, pathStem_end _⟩,
    ⟨_, joinSpec_eq_stem _ _ segOK_logs, pathStem_end _⟩, ?_, ?_, ?_, ?_, ?_⟩
  · simp only [pathsOf]
    rw [joinSpec_eq_stem _ _ segOK_conf]; exact components_stem_seg _ _ segOK_conf
  · simp only [pathsOf]
    rw [joinSpec_eq_stem _ _ segOK_run]; exact components_stem_seg _ _ segOK_run
  · simp only [pathsOf]
    rw [joinSpec_eq_stem _ _ segOK_data]; exact components_stem_seg _ _ segOK_data
  · simp only [pathsOf]
    rw [joinSpec_eq_stem _ _ segOK_logs]; exact components_stem_seg _ _ segOK_logs
  · simp [h12, h13, h14, h23, h24, h34]

/-- C14: the result depends on a root only through its cleaned form.  For
all roots `S` and `C`, empty or not, `GetPathConst` and `GetPathFileMode`
under `(S, C)` equal those under `(Clean S, Clean C)`; the roots `"/a"` and
`"/a/"`, and `"/c"` and `"/c//./"`, give the same record and the same map. -/
theorem C14_cleaned_roots (env : Env) :
    ∃ S1 C1, Clean (Getenv env (str "SNAP_DATA")) = some S1 ∧
      Clean (Getenv env (str "SNAP_COMMON")) = some C1 ∧
      GetPathConst env = GetPathConst (snapEnv S1 C1) ∧
      GetPathFileMode env = GetPathFileMode (snapEnv S1 C1) ∧
      GetPathConst (snapEnv (str "/a") (str "/c"))
        = GetPathConst (snapEnv (str "/a/") (str "/c//./")) ∧
      GetPathFileMode (snapEnv (str "/a") (str "/c"))
        = GetPathFileMode (snapEnv (str "/a/") (str "/c//./")) := by
  refine ⟨_, _, Clean_eq_cleanSpec _, Clean_eq_cleanSpec _, ?_, ?_, by decide, by decide⟩
  · rw [GetPathConst_eq, GetPathConst_eq, (Getenv_snapEnv _ _).1, (Getenv_snapEnv _ _).2,
      pathsOf_cleaned]
  · rw [GetPathFileMode_eq, GetPathFileMode_eq, (Getenv_snapEnv _ _).1,
      (Getenv_snapEnv _ _).2, pathsOf_cleaned]

end Microceph
